import Mathlib

set_option maxHeartbeats 1000000
set_option maxRecDepth 100000

/-! Verification of the nemostore listing-extraction utilities (src/utils.py,
src/app.py): a shallow embedding of the currency formatter, the markdown
JSON/HTML document splitter, the JSON repair extractor, the HTML detail
parsing and the dataframe normalization passes, together with theorems
settling the specification claims.  Python ints are modelled by unbounded
integers, Python floats by exact unreduced integer fractions (every float
the code manipulates is a small decimal fraction, on which machine floats
are exact), strings by character lists, and every fallible operation
returns an Option. -/

namespace Nemo

/-! ## Exact model of the Python floats used by the code -/

/-- A Python float value, represented exactly as an unreduced fraction with a
positive denominator. -/
structure PyFloat where
  num : Int
  den : Nat
deriving DecidableEq

/-- a <= x for an integer a and float x (denominators here are positive). -/
def pyLe (a : Int) (x : PyFloat) : Prop := a * x.den ≤ x.num

instance (a : Int) (x : PyFloat) : Decidable (pyLe a x) := by
  unfold pyLe; infer_instance

/-- Python x // k (float floor division) for a positive integer k. -/
def pyFloorDivInt (x : PyFloat) (k : Int) : Int := x.num.fdiv (k * x.den)

/-- Python x % k (float modulo, x - k * (x // k)) for a positive integer k. -/
def pyModInt (x : PyFloat) (k : Int) : PyFloat :=
  ⟨x.num - (k * x.den) * (x.num.fdiv (k * x.den)), x.den⟩

/-- Python int(x) on a float: truncation toward zero. -/
def pyIntOf (x : PyFloat) : Int := x.num.tdiv x.den

/-- Python n / 10 on an integer n (the result is a float). -/
def pyDivTen (n : Int) : PyFloat := ⟨n, 10⟩

/-! ## Python string primitives -/

/-- Whitespace recognised by Python's built-in str.strip (ASCII portion). -/
def pyWs (c : Char) : Bool :=
  c = ' ' || c = '\t' || c = '\n' || c = '\r' || c = '\x0b' || c = '\x0c'

/-- Python s.rstrip(): drop trailing whitespace. -/
def pyRstrip (l : List Char) : List Char := (l.reverse.dropWhile pyWs).reverse

/-- Python s.strip(): drop leading and trailing whitespace. -/
def pyStrip (l : List Char) : List Char := (pyRstrip l).dropWhile pyWs

/-- Python s.rfind(c): index of the last occurrence of a character, -1 if absent. -/
def rfindChar (c : Char) : List Char → Int
  | [] => -1
  | a :: rest =>
    let r := rfindChar c rest
    if 0 ≤ r then r + 1 else if a = c then 0 else -1

/-- Numeric value of a digit string. -/
def digitsVal (d : List Char) : Nat := d.foldl (fun a c => a * 10 + (c.toNat - 48)) 0

def allDigits (l : List Char) : Bool := l.all (fun c => c.isDigit)

def digitsToNat (ds : List Char) : Option Nat :=
  if ds ≠ [] ∧ allDigits ds = true then some (digitsVal ds) else none

/-- Python int(s) on a string: surrounding whitespace, an optional sign and a
digit run (the rarely-used underscore grouping of Python 3.6+ is not modelled).
Returns none exactly when Python raises ValueError. -/
def pyIntOfString (s : String) : Option Int :=
  match pyStrip s.toList with
  | '-' :: ds => (digitsToNat ds).map (fun n => -(n : Int))
  | '+' :: ds => (digitsToNat ds).map (fun n => (n : Int))
  | ds => (digitsToNat ds).map (fun n => (n : Int))

/-- Thousands grouping of a reversed digit list: insert a comma after every
three characters, working from the (reversed) front. -/
def commaGroupRev : List Char → List Char
  | a :: b :: c :: d :: rest => a :: b :: c :: ',' :: commaGroupRev (d :: rest)
  | l => l

/-- Python format spec value:, for a natural number. -/
def pyCommaNat (n : Nat) : String :=
  String.mk (commaGroupRev (toString n).toList.reverse).reverse

/-- Python format spec value:, for an integer. -/
def pyComma (n : Int) : String :=
  if n < 0 then "-" ++ pyCommaNat n.natAbs else pyCommaNat n.natAbs

/-! ## Python values reaching the currency formatter -/

/-- The finite inputs the formatter is exercised with: None, float NaN, a
numeric value (an integer n is the float ⟨n, 1⟩) or a string.  The two float
infinities, on which the source raises, are carried by the extended universe
PyValE below. -/
inductive PyVal where
  | pnone
  | nan
  | num (x : PyFloat)
  | str (s : String)
deriving DecidableEq

/-! ## Currency formatter (src/utils.py lines 19-40) -/

/-- Lines 32-40 of format_kor_money_from_thousand: format a value already in
the ten-thousand tier.  uk is int(val_man // 10000) (// floors, and int() on
the integral float it returns is the identity), man is int(val_man % 10000). -/
def formatMan (val_man : PyFloat) : String :=
  if pyLe 10000 val_man then
    let uk : Int := pyFloorDivInt val_man 10000
    let man : Int := pyIntOf (pyModInt val_man 10000)
    if 0 < man then toString uk ++ "억 " ++ pyComma man ++ "만"
    else toString uk ++ "억"
  else pyComma (pyIntOf val_man) ++ "만"

/-- src/utils.py lines 19-40 on the finite universe, where every path
returns.  None, NaN and 0 return "0"; otherwise val_man = int(v) / 10 and
the two-tier formatting runs; a string that int() cannot convert returns "0"
(the v == 0 test is False for every string, so a convertible string skips
the zero test).  The uncaught OverflowError path at ±Infinity is modelled by
format_kor_money_checked over PyValE. -/
def format_kor_money_from_thousand : PyVal → String
  | .pnone => "0"
  | .nan => "0"
  | .num x => if x.num = 0 then "0" else formatMan (pyDivTen (pyIntOf x))
  | .str s =>
    match pyIntOfString s with
    | none => "0"
    | some n => formatMan (pyDivTen n)

/-- An integer-valued input to the formatter (Python int). -/
def intVal (n : Int) : PyVal := .num ⟨n, 1⟩

example : format_kor_money_from_thousand (intVal 1700) = "170만" := by decide
example : format_kor_money_from_thousand (intVal 135000) = "1억 3,500만" := by decide
example : format_kor_money_from_thousand (intVal 90000) = "9,000만" := by decide
example : format_kor_money_from_thousand (intVal 100000) = "1억" := by decide
example : format_kor_money_from_thousand (intVal 45000) = "4,500만" := by decide
example : format_kor_money_from_thousand (intVal 90) = "9만" := by decide
example : format_kor_money_from_thousand (intVal 5) = "0만" := by decide
example : format_kor_money_from_thousand (intVal (-5)) = "0만" := by decide
example : format_kor_money_from_thousand (intVal 0) = "0" := by decide
example : format_kor_money_from_thousand (.str "x1") = "0" := by decide
example : format_kor_money_from_thousand (.str " 12 ") = "1만" := by decide

/-- The formatter's full input universe: the finite inputs of PyVal plus the
two float infinities, which PyVal omits. -/
inductive PyValE where
  | pnone
  | nan
  | inf (neg : Bool)
  | num (x : PyFloat)
  | str (s : String)
deriving DecidableEq

/-- src/utils.py lines 19-40 with the error path kept: none models an
exception escaping the call.  ±Infinity passes the line-23 guard (it is
neither None nor NaN and compares unequal to 0), int(v) at line 28 raises
OverflowError, and the except clause at line 29 names only ValueError and
TypeError, so the exception propagates uncaught: the function is partial on
the full float universe.  Every finite input takes exactly the branches of
format_kor_money_from_thousand. -/
def format_kor_money_checked : PyValE → Option String
  | .pnone => some "0"
  | .nan => some "0"
  | .inf _ => none
  | .num x => some (if x.num = 0 then "0" else formatMan (pyDivTen (pyIntOf x)))
  | .str s =>
    some (match pyIntOfString s with
          | none => "0"
          | some n => formatMan (pyDivTen n))

/-- The finite embedding of PyVal into the full universe. -/
def PyValE.ofFin : PyVal → PyValE
  | .pnone => .pnone
  | .nan => .nan
  | .num x => .num x
  | .str s => .str s

/-- An integer-valued input in the full universe (Python int). -/
def intValE (n : Int) : PyValE := .num ⟨n, 1⟩

example : format_kor_money_checked (intValE 135000) = some "1억 3,500만" := by decide
example : format_kor_money_checked (.inf false) = none := by decide
example : format_kor_money_checked (.inf true) = none := by decide

/-- On every finite value the checked formatter returns exactly the string
of the total model: the two models differ only at the infinities. -/
theorem format_kor_money_checked_ofFin (v : PyVal) :
    format_kor_money_checked (PyValE.ofFin v) =
      some (format_kor_money_from_thousand v) := by
  cases v <;> rfl

theorem pyIntOf_int (n : Int) : pyIntOf ⟨n, 1⟩ = n := by
  unfold pyIntOf; simp

theorem pyLe_divTen (n : Int) : pyLe 10000 (pyDivTen n) ↔ 100000 ≤ n := by
  norm_num [pyLe, pyDivTen]

theorem formatMan_big {n : Int} (h : 100000 ≤ n) :
    formatMan (pyDivTen n) =
      (if 0 < n % 100000 / 10 then
        toString (n / 100000) ++ "억 " ++ pyComma (n % 100000 / 10) ++ "만"
       else toString (n / 100000) ++ "억") := by
  rw [formatMan, if_pos ((pyLe_divTen n).mpr h)]
  have hd : ((10000 : Int) * ((10 : Nat) : Int)) = 100000 := by norm_num
  have h1 : pyFloorDivInt (pyDivTen n) 10000 = n / 100000 := by
    unfold pyFloorDivInt pyDivTen
    simp only [hd]
    exact Int.fdiv_eq_ediv n (by norm_num)
  have h2 : pyIntOf (pyModInt (pyDivTen n) 10000) = n % 100000 / 10 := by
    unfold pyIntOf pyModInt pyDivTen
    simp only [hd, Int.fdiv_eq_ediv n (show (0:Int) ≤ 100000 by norm_num), ← Int.emod_def]
    exact Int.tdiv_eq_ediv (Int.emod_nonneg n (by norm_num)) (by norm_num)
  rw [h1, h2]

theorem formatMan_small {n : Int} (h : n < 100000) :
    formatMan (pyDivTen n) = pyComma (n.tdiv 10) ++ "만" := by
  have hc : ¬ pyLe 10000 (pyDivTen n) := by rw [pyLe_divTen]; omega
  rw [formatMan, if_neg hc]
  unfold pyIntOf pyDivTen
  norm_num

theorem format_int_eval (n : Int) (hn : n ≠ 0) :
    format_kor_money_from_thousand (intVal n) = formatMan (pyDivTen n) := by
  show (if n = 0 then "0" else formatMan (pyDivTen (pyIntOf ⟨n, 1⟩))) = _
  rw [if_neg hn, pyIntOf_int]

theorem format_checked_int_eval (n : Int) (hn : n ≠ 0) :
    format_kor_money_checked (intValE n) = some (formatMan (pyDivTen n)) := by
  show some (if n = 0 then "0" else formatMan (pyDivTen (pyIntOf ⟨n, 1⟩))) = _
  rw [if_neg hn, pyIntOf_int]

/-- C1, corrected.  Over the full universe: the formatter returns "0" on
None, NaN, exact zero and every string int() cannot convert; a nonzero
integer n is scaled to n / 10 and, at or above the hundred-million tier
(scaled >= 10000, i.e. n >= 100000), rendered as hi 억 lo 만 with
hi = floor(scaled / 10000) = n / 100000 and lo = int(scaled % 10000) =
(n % 100000) / 10, the lo part thousands-grouped and dropped when zero;
below that tier the output is int(scaled) 만, where int() truncates toward
zero (the claim's floor(scaled) is wrong for negative inputs); and on
±Infinity the function raises — int(v) throws OverflowError past the except
clause, which names only ValueError and TypeError — so the claim's
never-throws clause is also false.  See the counterexample for both
refutations. -/
theorem format_kor_money_spec :
    format_kor_money_checked .pnone = some "0" ∧
    format_kor_money_checked .nan = some "0" ∧
    (∀ x : PyFloat, x.num = 0 → format_kor_money_checked (.num x) = some "0") ∧
    (∀ s : String, pyIntOfString s = none →
      format_kor_money_checked (.str s) = some "0") ∧
    (∀ n : Int, 100000 ≤ n →
      format_kor_money_checked (intValE n) =
        some (if 0 < n % 100000 / 10 then
          toString (n / 100000) ++ "억 " ++ pyComma (n % 100000 / 10) ++ "만"
         else toString (n / 100000) ++ "억")) ∧
    (∀ n : Int, n ≠ 0 → n < 100000 →
      format_kor_money_checked (intValE n) = some (pyComma (n.tdiv 10) ++ "만")) ∧
    (∀ b : Bool, format_kor_money_checked (.inf b) = none) := by
  refine ⟨rfl, rfl, ?_, ?_, ?_, ?_, fun b => rfl⟩
  · intro x hx
    show some (if x.num = 0 then "0" else _) = some "0"
    rw [if_pos hx]
  · intro s hs
    show some (match pyIntOfString s with
          | none => "0"
          | some n => formatMan (pyDivTen n)) = some "0"
    rw [hs]
  · intro n hn
    rw [format_checked_int_eval n (by omega), formatMan_big hn]
  · intro n hn hlt
    rw [format_checked_int_eval n hn, formatMan_small hlt]

/-- C1 witness: the theorem applied at 135000 (hundred-million tier), at the
unconvertible string "x", and at positive Infinity. -/
theorem format_kor_money_spec_witness :
    format_kor_money_checked (intValE 135000) = some "1억 3,500만" ∧
    format_kor_money_checked (.str "x") = some "0" ∧
    format_kor_money_checked (.inf false) = none := by
  refine ⟨?_, ?_, ?_⟩
  · rw [format_kor_money_spec.2.2.2.2.1 135000 (by norm_num)]
    decide
  · exact format_kor_money_spec.2.2.2.1 "x" (by decide)
  · exact format_kor_money_spec.2.2.2.2.2.2 false

/-- C1 counterexample: two clauses of the claim fail.  The sub-tier branch
truncates toward zero: at v = -5 the code computes int(-0.5) = 0 and prints
0만 while the claim's floor(-0.5) = -1 would print -1만.  And the function
does throw: at v = +Infinity the None/NaN/zero guard falls through, int(v)
raises OverflowError, and the except clause catches only ValueError and
TypeError, so no string — in particular not "0" — is ever returned. -/
theorem format_kor_money_claim_false :
    (format_kor_money_checked (intValE (-5)) = some "0만" ∧
     pyComma (Int.fdiv (-5) 10) ++ "만" = "-1만" ∧
     format_kor_money_checked (intValE (-5)) ≠
       some (pyComma (Int.fdiv (-5) 10) ++ "만")) ∧
    (format_kor_money_checked (.inf false) = none ∧
     ∀ s : String, format_kor_money_checked (.inf false) ≠ some s) :=
  ⟨⟨by decide, by decide, by decide⟩, ⟨rfl, fun s h => Option.noConfusion h⟩⟩

/-- C10: a positive thousand-unit value below 10 scales to a fraction below 1,
truncates to 0 in the ten-thousand tier and renders as the string 0만, which
differs from the "0" returned for null, NaN, zero or junk input. -/
theorem format_small_positive_renders_zero_man (v : Int) (h1 : 0 < v) (h2 : v < 10) :
    format_kor_money_from_thousand (intVal v) = "0만" ∧
    format_kor_money_from_thousand (intVal v) ≠ "0" := by
  have hz : v.tdiv 10 = 0 := by
    rw [Int.tdiv_eq_ediv (by omega) (by norm_num)]
    exact Int.ediv_eq_zero_of_lt (by omega) (by omega)
  rw [format_int_eval v (by omega), formatMan_small (by omega), hz]
  exact ⟨by decide, by decide⟩

/-- C10 witness: the theorem applied at v = 3. -/
theorem format_small_positive_renders_zero_man_witness :
    format_kor_money_from_thousand (intVal 3) = "0만" ∧
    format_kor_money_from_thousand (intVal 3) ≠ "0" :=
  format_small_positive_renders_zero_man 3 (by norm_num) (by norm_num)

/-! ## JSON values and strict json.loads

The model covers the strict-mode grammar json.loads accepts: the RFC 8259
grammar with Python's duplicate-key (last wins, first position kept)
object semantics.  The rarely used allow_nan extension literals
(NaN, Infinity, negative Infinity) and surrogate recombination in \u escapes are
not modelled; no claim exercises them. -/

inductive Json where
  | null
  | bool (b : Bool)
  | num (v : PyFloat)
  | str (s : List Char)
  | arr (xs : List Json)
  | obj (kvs : List (List Char × Json))

/-- JSON whitespace (space, tab, newline, carriage return). -/
def isJsonWs (c : Char) : Bool := c = ' ' || c = '\t' || c = '\n' || c = '\r'

def skipWs (l : List Char) : List Char := l.dropWhile isJsonWs

def hexVal (c : Char) : Option Nat :=
  if '0' ≤ c ∧ c ≤ '9' then some (c.toNat - 48)
  else if 'a' ≤ c ∧ c ≤ 'f' then some (c.toNat - 87)
  else if 'A' ≤ c ∧ c ≤ 'F' then some (c.toNat - 55)
  else none

/-- Scan the body of a string literal (the opening quote already consumed):
ordinary characters, the short escapes, \uXXXX, and a strict-mode rejection
of raw control characters.  Returns the decoded text and the rest. -/
def scanString (acc : List Char) : List Char → Option (List Char × List Char)
  | [] => none
  | c :: rest =>
    if c = '"' then some (acc.reverse, rest)
    else if c = '\\' then
      match rest with
      | [] => none
      | e :: rest2 =>
        if e = '"' then scanString ('"' :: acc) rest2
        else if e = '\\' then scanString ('\\' :: acc) rest2
        else if e = '/' then scanString ('/' :: acc) rest2
        else if e = 'b' then scanString ('\x08' :: acc) rest2
        else if e = 'f' then scanString ('\x0c' :: acc) rest2
        else if e = 'n' then scanString ('\n' :: acc) rest2
        else if e = 'r' then scanString ('\r' :: acc) rest2
        else if e = 't' then scanString ('\t' :: acc) rest2
        else if e = 'u' then
          match rest2 with
          | h1 :: h2 :: h3 :: h4 :: rest3 =>
            match hexVal h1, hexVal h2, hexVal h3, hexVal h4 with
            | some a, some b, some c2, some d =>
              scanString (Char.ofNat (a * 4096 + b * 256 + c2 * 16 + d) :: acc) rest3
            | _, _, _, _ => none
          | _ => none
        else none
    else if c.toNat < 32 then none
    else scanString (c :: acc) rest

/-- Longest digit run at the front. -/
def munchDigits : List Char → List Char × List Char
  | [] => ([], [])
  | c :: rest =>
    if c.isDigit then
      let p := munchDigits rest
      (c :: p.1, p.2)
    else ([], c :: rest)

def splitSign : List Char → Bool × List Char
  | [] => (false, [])
  | c :: r => if c = '-' then (true, r) else (false, c :: r)

/-- Integer part of the NUMBER_RE regex: 0, or a nonzero digit followed by a
digit run (a leading 0 is never extended). -/
def scanIntPart : List Char → Option (List Char × List Char)
  | [] => none
  | c :: r =>
    if c = '0' then some ([c], r)
    else if c.isDigit then
      let p := munchDigits r
      some (c :: p.1, p.2)
    else none

/-- Optional fraction: a dot followed by at least one digit, else nothing is
consumed (the regex backtracks past a bare dot). -/
def scanFracPart : List Char → List Char × List Char
  | [] => ([], [])
  | c :: r =>
    if c = '.' then
      if (munchDigits r).1 = [] then ([], c :: r) else munchDigits r
    else ([], c :: r)

/-- Sign of an exponent: a leading + or - is consumed, anything else is not. -/
def expSign : List Char → Bool × List Char
  | [] => (false, [])
  | c :: rr => if c = '+' then (false, rr) else if c = '-' then (true, rr) else (false, c :: rr)

/-- Optional exponent: e or E, an optional sign, at least one digit; else
nothing is consumed. -/
def scanExpPart : List Char → Int × List Char
  | [] => (0, [])
  | e :: r =>
    if e = 'e' ∨ e = 'E' then
      if (munchDigits (expSign r).2).1 = [] then (0, e :: r)
      else
        ((if (expSign r).1 then -(digitsVal (munchDigits (expSign r).2).1 : Int)
          else (digitsVal (munchDigits (expSign r).2).1 : Int)), (munchDigits (expSign r).2).2)
    else (0, e :: r)

/-- Exact value of a JSON number literal: sign * (int.frac) * 10^exp. -/
def jsonNumVal (neg : Bool) (ip fp : List Char) (ev : Int) : PyFloat :=
  let m : Int := (digitsVal ip * 10 ^ fp.length + digitsVal fp : Nat)
  let m : Int := if neg then -m else m
  if 0 ≤ ev then ⟨m * 10 ^ ev.toNat, 10 ^ fp.length⟩
  else ⟨m, 10 ^ fp.length * 10 ^ (-ev).toNat⟩

/-- A number token, following json's NUMBER_RE. -/
def scanNumber (l : List Char) : Option (PyFloat × List Char) :=
  match scanIntPart (splitSign l).2 with
  | none => none
  | some (ip, l2) =>
    some (jsonNumVal (splitSign l).1 ip (scanFracPart l2).1 (scanExpPart (scanFracPart l2).2).1,
      (scanExpPart (scanFracPart l2).2).2)

inductive Jtok where
  | lbrace | rbrace | lbrack | rbrack | comma | colon
  | jstr (s : List Char) | jnum (v : PyFloat) | jtrue | jfalse | jnull
deriving DecidableEq

/-- One token at the front of the (whitespace-skipped) input. -/
def oneToken (l : List Char) : Option (Jtok × List Char) :=
  match l with
  | [] => none
  | c :: r =>
    if c = '{' then some (.lbrace, r)
    else if c = '}' then some (.rbrace, r)
    else if c = '[' then some (.lbrack, r)
    else if c = ']' then some (.rbrack, r)
    else if c = ',' then some (.comma, r)
    else if c = ':' then some (.colon, r)
    else if c = '"' then (scanString [] r).map (fun p => (.jstr p.1, p.2))
    else if c = 't' then
      if List.isPrefixOf ['r', 'u', 'e'] r then some (.jtrue, r.drop 3) else none
    else if c = 'f' then
      if List.isPrefixOf ['a', 'l', 's', 'e'] r then some (.jfalse, r.drop 4) else none
    else if c = 'n' then
      if List.isPrefixOf ['u', 'l', 'l'] r then some (.jnull, r.drop 3) else none
    else if c = '-' ∨ c.isDigit then (scanNumber (c :: r)).map (fun p => (.jnum p.1, p.2))
    else none

/-- Token stream of a document; fails on the first bad token.  The fuel only
needs to dominate the token count; every call site passes length + 1. -/
def tokenize (fuel : Nat) (l : List Char) : Option (List Jtok) :=
  match skipWs l with
  | [] => some []
  | l' =>
    match fuel with
    | 0 => none
    | fuel' + 1 =>
      match oneToken l' with
      | none => none
      | some (t, r) => (tokenize fuel' r).map (fun ts => t :: ts)

/-- Python dict insertion: an existing key keeps its position and gets the new
value, a new key is appended. -/
def objInsert (kvs : List (List Char × Json)) (k : List Char) (v : Json) :
    List (List Char × Json) :=
  match kvs with
  | [] => [(k, v)]
  | (k0, v0) :: rest => if k0 = k then (k0, v) :: rest else (k0, v0) :: objInsert rest k v

mutual

/-- Recursive-descent parse of one value from the token stream. -/
def parseVal : Nat → List Jtok → Option (Json × List Jtok)
  | 0, _ => none
  | fuel + 1, ts =>
    match ts with
    | .jstr s :: r => some (.str s, r)
    | .jnum v :: r => some (.num v, r)
    | .jtrue :: r => some (.bool true, r)
    | .jfalse :: r => some (.bool false, r)
    | .jnull :: r => some (.null, r)
    | .lbrack :: .rbrack :: r => some (.arr [], r)
    | .lbrack :: r => parseArrItems fuel r []
    | .lbrace :: .rbrace :: r => some (.obj [], r)
    | .lbrace :: r => parseObjItems fuel r []
    | _ => none

/-- Comma-separated array elements up to the closing bracket. -/
def parseArrItems : Nat → List Jtok → List Json → Option (Json × List Jtok)
  | 0, _, _ => none
  | fuel + 1, ts, acc =>
    match parseVal fuel ts with
    | none => none
    | some (v, r) =>
      match r with
      | .comma :: r2 => parseArrItems fuel r2 (v :: acc)
      | .rbrack :: r2 => some (.arr (v :: acc).reverse, r2)
      | _ => none

/-- Comma-separated key: value members up to the closing brace. -/
def parseObjItems : Nat → List Jtok → List (List Char × Json) →
    Option (Json × List Jtok)
  | 0, _, _ => none
  | fuel + 1, ts, acc =>
    match ts with
    | .jstr k :: .colon :: r =>
      match parseVal fuel r with
      | none => none
      | some (v, r2) =>
        match r2 with
        | .comma :: r3 => parseObjItems fuel r3 (objInsert acc k v)
        | .rbrace :: r3 => some (.obj (objInsert acc k v), r3)
        | _ => none
    | _ => none

end

/-- json.loads in strict mode (the default): tokenize the whole text, parse
exactly one value, and require that it consumes every token. -/
def pyJsonLoads (l : List Char) : Option Json :=
  match tokenize (l.length + 1) l with
  | none => none
  | some ts =>
    match parseVal (ts.length + 1) ts with
    | some (v, []) => some v
    | _ => none

example : pyJsonLoads (("[1, 2]").toList) =
    some (.arr [.num ⟨1, 1⟩, .num ⟨2, 1⟩]) := rfl
example : pyJsonLoads (("\x7b\"a\": true\x7d").toList) =
    some (.obj [(['a'], .bool true)]) := rfl
example : pyJsonLoads (("\x7b\"a\":1").toList) = none := rfl
example : pyJsonLoads (("null garbage").toList) = none := rfl
example : pyJsonLoads (("\"a\\u0041b\"").toList) = some (.str ['a', 'A', 'b']) := rfl
example : pyJsonLoads (("-1.5e1").toList) = some (.num ⟨-150, 10⟩) := rfl

/-! ## Document splitter and JSON repair extractor (src/utils.py lines 42-92) -/

/-- The HTML block-start marker the splitter looks for. -/
def markerDiv : List Char := ("<div").toList

/-- Index of the first occurrence of pat as a contiguous substring; drives
both the Python in test and s.split(pat, 1). -/
def findSubIdx (pat : List Char) : List Char → Option Nat
  | [] => if pat = [] then some 0 else none
  | c :: rest =>
    if pat.isPrefixOf (c :: rest) then some 0
    else (findSubIdx pat rest).map (fun i => i + 1)

/-- src/utils.py lines 50-56: split the document at the first "<div"; the part
before it is stripped and the marker is re-prepended to the part after it.
The no-marker branch returns the document unstripped. -/
def docSplit (content : List Char) : List Char × List Char :=
  match findSubIdx markerDiv content with
  | some i => (pyStrip (content.take i), markerDiv ++ content.drop (i + markerDiv.length))
  | none => (content, [])

/-- Lines 66-70: the latest index holding one of the three terminator
characters, computed as a running maximum of per-character rfinds over
the loop list, starting from -1. -/
def lastValidIdx (l : List Char) : Int :=
  [('}' : Char), ']', ','].foldl
    (fun acc c => let idx := rfindChar c l; if acc < idx then idx else acc) (-1)

/-- Lines 83-88: the four repair suffixes, in source order. -/
def repairSuffixes : List (List Char) :=
  [("]\x7d").toList, ("\x7d").toList, ("]\x7d").toList, (" ] \x7d").toList]

/-- Lines 83-88: append each repair suffix in turn and reparse, stopping at
the first success; every failure is swallowed by the bare except. -/
def tryRepairs : List (List Char) → List Char → Option Json
  | [], _ => none
  | sfx :: rest, js =>
    match pyJsonLoads (js ++ sfx) with
    | some j => some j
    | none => tryRepairs rest js

/-- Lines 79-88: strict parse first, then the repair loop. -/
def attemptParse (json_str : List Char) : Option Json :=
  match pyJsonLoads json_str with
  | some j => some j
  | none => tryRepairs repairSuffixes json_str

/-- Lines 72-73: keep everything up to and including the last terminator
character, stripped; leave the string alone when no terminator occurs. -/
def cutAfterLastTerminator (s1 : List Char) : List Char :=
  if lastValidIdx s1 ≠ -1 then pyStrip (s1.take ((lastValidIdx s1).toNat + 1)) else s1

/-- Lines 75-76: drop a trailing comma and re-strip. -/
def dropTrailingComma (s2 : List Char) : List Char :=
  if s2.getLast? = some ',' then pyStrip s2.dropLast else s2

/-- Lines 58-92, the JSON-candidate half of extract_data_from_markdown: find
the first brace (None when absent), strip, cut just after the last
terminator character, drop a trailing comma, then parse with repair. -/
def extractJson (json_part : List Char) : Option Json :=
  match json_part.findIdx? (fun c => c = '{') with
  | none => none
  | some start =>
    attemptParse (dropTrailingComma (cutAfterLastTerminator (pyStrip (json_part.drop start))))

/-- src/utils.py lines 42-92: split the document, extract the JSON candidate,
return (json_data, html_part).  Every step of the model is total, so the
outer try/except of the source can never fire. -/
def extract_data_from_markdown (content : List Char) : Option Json × List Char :=
  (extractJson (docSplit content).1, (docSplit content).2)

example : docSplit (("ab<div>x").toList) = (("ab").toList, ("<div>x").toList) := rfl
example : docSplit ((" ab ").toList) = ((" ab ").toList, []) := rfl
example : extractJson (("\x7b\"a\": 1\x7d junk text").toList) =
    some (.obj [(['a'], .num ⟨1, 1⟩)]) := rfl
example : extractJson (("\x7b\"items\":[\x7b\"a\":1\x7d,\x7b\"a\":2\x7d").toList) =
    some (.obj [((("items").toList),
      .arr [.obj [(['a'], .num ⟨1, 1⟩)], .obj [(['a'], .num ⟨2, 1⟩)]])]) := rfl
example : extractJson (("no braces here").toList) = none := rfl
example : extractJson (("\x7b\"a\":1, ").toList) = some (.obj [(['a'], .num ⟨1, 1⟩)]) := rfl
example : extractJson (("\x7b\"a\":1\x7dx]").toList) = none := rfl

/-! ## Strip, rfind and substring-search lemmas -/

theorem mem_pyRstrip {a : Char} {l : List Char} (h : a ∈ pyRstrip l) : a ∈ l := by
  unfold pyRstrip at h
  rw [List.mem_reverse] at h
  exact List.mem_reverse.mp (List.dropWhile_subset pyWs h)

theorem pyRstrip_append {s g : List Char} (c : Char) (hlast : s.getLast? = some c)
    (hc : pyWs c = false) : pyRstrip (s ++ g) = s ++ pyRstrip g := by
  obtain ⟨ys, rfl⟩ := List.getLast?_eq_some_iff.mp hlast
  have hrev : (ys ++ [c]).reverse = c :: ys.reverse := by simp
  have hdc : List.dropWhile pyWs (c :: ys.reverse) = c :: ys.reverse := by
    rw [List.dropWhile_cons, hc]
    simp
  unfold pyRstrip
  rw [List.reverse_append, List.dropWhile_append, hrev, hdc]
  by_cases hemp : List.dropWhile pyWs g.reverse = []
  · rw [if_pos (by simp [hemp]), hemp]
    simp
  · rw [if_neg (by simpa using hemp)]
    simp

theorem pyStrip_append {s g : List Char} (c d : Char) (hhead : s.head? = some c)
    (hch : pyWs c = false) (hlast : s.getLast? = some d) (hcd : pyWs d = false) :
    pyStrip (s ++ g) = s ++ pyRstrip g := by
  rw [pyStrip, pyRstrip_append d hlast hcd]
  obtain ⟨t, rfl⟩ : ∃ t, s = c :: t := by
    cases s with
    | nil => simp at hhead
    | cons a t => simp only [List.head?_cons, Option.some.injEq] at hhead; exact ⟨t, by rw [hhead]⟩
  simp [List.dropWhile_cons, hch]

theorem pyStrip_eq_self {s : List Char} (c d : Char) (hhead : s.head? = some c)
    (hch : pyWs c = false) (hlast : s.getLast? = some d) (hcd : pyWs d = false) :
    pyStrip s = s := by
  have h := @pyStrip_append s [] c d hhead hch hlast hcd
  simpa [pyRstrip] using h

theorem rfindChar_neg_one {c : Char} {l : List Char} (h : c ∉ l) : rfindChar c l = -1 := by
  induction l with
  | nil => rfl
  | cons a rest ih =>
    simp only [List.mem_cons, not_or] at h
    simp only [rfindChar, ih h.2]
    simp [h.1, Ne.symm h.1]

theorem rfindChar_lt_length (c : Char) (l : List Char) :
    rfindChar c l < (l.length : Int) ∧ -1 ≤ rfindChar c l := by
  induction l with
  | nil => exact ⟨by norm_num [rfindChar], by norm_num [rfindChar]⟩
  | cons a rest ih =>
    simp only [rfindChar, List.length_cons]
    constructor
    · split
      · push_cast; omega
      · split <;> push_cast <;> omega
    · split
      · omega
      · split <;> omega

theorem rfindChar_append_not_mem {c : Char} {a b : List Char} (h : c ∉ b) :
    rfindChar c (a ++ b) = rfindChar c a := by
  induction a with
  | nil => simpa [rfindChar] using rfindChar_neg_one h
  | cons x a' ih =>
    have e1 : rfindChar c (x :: (a' ++ b)) =
        (if 0 ≤ rfindChar c (a' ++ b) then rfindChar c (a' ++ b) + 1
         else if x = c then 0 else -1) := rfl
    have e2 : rfindChar c (x :: a') =
        (if 0 ≤ rfindChar c a' then rfindChar c a' + 1
         else if x = c then 0 else -1) := rfl
    rw [List.cons_append, e1, e2, ih]

theorem rfindChar_getLast {c : Char} {s : List Char} (h : s.getLast? = some c) :
    rfindChar c s = (s.length : Int) - 1 := by
  induction s with
  | nil => simp at h
  | cons a rest ih =>
    cases rest with
    | nil =>
      simp only [List.getLast?_singleton, Option.some.injEq] at h
      simp [rfindChar, h]
    | cons y t =>
      rw [List.getLast?_cons_cons] at h
      have ht := ih h
      have e : rfindChar c (a :: y :: t) =
          (if 0 ≤ rfindChar c (y :: t) then rfindChar c (y :: t) + 1
           else if a = c then 0 else -1) := rfl
      rw [e, ht, if_pos (by simp only [List.length_cons]; push_cast; omega)]
      simp only [List.length_cons]
      push_cast
      omega

/-- When the base part ends in a closing brace and the appended garbage holds
no terminator character, the cut index is the final index of the base. -/
theorem lastValidIdx_append {s g : List Char} (hlast : s.getLast? = some '}')
    (hg : ∀ c ∈ g, c ≠ '}' ∧ c ≠ ']' ∧ c ≠ ',') :
    lastValidIdx (s ++ g) = (s.length : Int) - 1 := by
  have hne : s ≠ [] := by intro h; rw [h] at hlast; simp at hlast
  have hlen : 1 ≤ s.length := by
    cases s with | nil => exact absurd rfl hne | cons _ _ => simp
  have h1 : rfindChar '}' (s ++ g) = (s.length : Int) - 1 := by
    rw [rfindChar_append_not_mem (fun hm => ((hg _ hm).1 rfl))]
    exact rfindChar_getLast hlast
  have h2 : rfindChar ']' (s ++ g) ≤ (s.length : Int) - 1 := by
    rw [rfindChar_append_not_mem (fun hm => ((hg _ hm).2.1 rfl))]
    have := rfindChar_lt_length ']' s
    omega
  have h3 : rfindChar ',' (s ++ g) ≤ (s.length : Int) - 1 := by
    rw [rfindChar_append_not_mem (fun hm => ((hg _ hm).2.2 rfl))]
    have := rfindChar_lt_length ',' s
    omega
  simp only [lastValidIdx, List.foldl_cons, List.foldl_nil]
  rw [h1]
  have a1 : (if (-1 : Int) < (s.length : Int) - 1 then (s.length : Int) - 1 else -1) =
      (s.length : Int) - 1 := if_pos (by omega)
  rw [a1]
  have a2 : (if ((s.length : Int) - 1) < rfindChar ']' (s ++ g) then rfindChar ']' (s ++ g)
      else (s.length : Int) - 1) = (s.length : Int) - 1 := if_neg (by omega)
  rw [a2]
  exact if_neg (by omega)

theorem findSubIdx_some {pat l : List Char} {i : Nat} (h : findSubIdx pat l = some i) :
    pat.isPrefixOf (l.drop i) = true ∧
    ∀ j, j < i → ¬ pat.isPrefixOf (l.drop j) = true := by
  induction l generalizing i with
  | nil =>
    by_cases hp : pat = []
    · simp only [findSubIdx, if_pos hp, Option.some.injEq] at h
      subst h
      exact ⟨by simp [hp, List.isPrefixOf], by omega⟩
    · simp [findSubIdx, hp] at h
  | cons c rest ih =>
    by_cases hp : pat.isPrefixOf (c :: rest) = true
    · simp only [findSubIdx, if_pos hp, Option.some.injEq] at h
      subst h
      exact ⟨hp, by omega⟩
    · simp only [findSubIdx, if_neg hp, Option.map_eq_some'] at h
      obtain ⟨i', hi', rfl⟩ := h
      obtain ⟨h1, h2⟩ := ih hi'
      refine ⟨h1, ?_⟩
      intro j hj
      cases j with
      | zero => simpa using hp
      | succ j' => exact h2 j' (by omega)

theorem findSubIdx_none {pat l : List Char} (h : findSubIdx pat l = none) :
    ∀ j, ¬ pat.isPrefixOf (l.drop j) = true := by
  induction l with
  | nil =>
    intro j
    cases pat with
    | nil => simp [findSubIdx] at h
    | cons a p => simp [List.isPrefixOf]
  | cons c rest ih =>
    intro j
    by_cases hp : pat.isPrefixOf (c :: rest) = true
    · simp [findSubIdx, hp] at h
    · simp only [findSubIdx, if_neg hp, Option.map_eq_none'] at h
      cases j with
      | zero => simpa using hp
      | succ j' => exact ih h j'

/-! ## Claims about the splitter and the extractor -/

/-- C6, corrected.  With the marker present, the document is split at its
first occurrence: the part before it, whitespace-stripped, is the JSON
candidate, and the marker re-prepended to the part after it is the HTML
fragment.  With no marker anywhere the whole document is the JSON candidate
unstripped (the claim says trimmed; the source only strips in the marker
branch) and the HTML fragment is empty. -/
theorem docSplit_spec :
    (∀ content : List Char, ∀ i, findSubIdx markerDiv content = some i →
      markerDiv.isPrefixOf (content.drop i) = true ∧
      (∀ j, j < i → ¬ markerDiv.isPrefixOf (content.drop j) = true) ∧
      docSplit content = (pyStrip (content.take i), markerDiv ++ content.drop (i + 4))) ∧
    (∀ content : List Char, findSubIdx markerDiv content = none →
      (∀ j, ¬ markerDiv.isPrefixOf (content.drop j) = true) ∧
      docSplit content = (content, [])) := by
  constructor
  · intro content i h
    obtain ⟨h1, h2⟩ := findSubIdx_some h
    refine ⟨h1, h2, ?_⟩
    rw [docSplit, h]
    exact rfl
  · intro content h
    exact ⟨findSubIdx_none h, by rw [docSplit, h]⟩

theorem extractJson_found {l : List Char} {i : Nat}
    (h : l.findIdx? (fun c => c = '{') = some i) :
    extractJson l =
      attemptParse (dropTrailingComma (cutAfterLastTerminator (pyStrip (l.drop i)))) := by
  rw [extractJson, h]

/-- C6 witness: the theorem applied to a document whose first marker sits at
index 1, and to a marker-free document. -/
theorem docSplit_spec_witness :
    docSplit (("a<divZ").toList) =
      (pyStrip ((("a<divZ").toList).take 1), markerDiv ++ (("a<divZ").toList).drop 5) ∧
    docSplit (("ab").toList) = (("ab").toList, []) :=
  ⟨(docSplit_spec.1 (("a<divZ").toList) 1 rfl).2.2, (docSplit_spec.2 (("ab").toList) rfl).2⟩

/-- C6 counterexample: a marker-free document with leading whitespace is
passed through unstripped, so the JSON candidate is not the trimmed
document the claim describes. -/
theorem docSplit_trim_claim_false :
    docSplit ((" x").toList) = ((" x").toList, []) ∧
    pyStrip ((" x").toList) = ("x").toList ∧
    (" x").toList ≠ ("x").toList :=
  ⟨rfl, rfl, by decide⟩

/-- C5: a document without an opening brace makes the extractor return None
for the parsed object; in this model every step of the pipeline is a total
function, which is the shallow form of never raising. -/
theorem extract_no_brace_fails (content : List Char) (h : '{' ∉ content) :
    (extract_data_from_markdown content).1 = none := by
  have hsub : ∀ a : Char, a ∈ (docSplit content).1 → a ∈ content := by
    intro a ha
    rw [docSplit] at ha
    cases hf : findSubIdx markerDiv content with
    | none => rw [hf] at ha; exact ha
    | some i =>
      rw [hf] at ha
      have := mem_pyRstrip (List.dropWhile_subset pyWs ha)
      exact List.take_subset i content this
  show extractJson (docSplit content).1 = none
  rw [extractJson]
  have : (docSplit content).1.findIdx? (fun c => c = '{') = none := by
    rw [List.findIdx?_eq_none_iff]
    intro x hx
    simp only [decide_eq_false_iff_not]
    intro heq
    exact h (heq ▸ hsub x hx)
  rw [this]

/-- C5 witness: the theorem applied to a brace-free document. -/
theorem extract_no_brace_fails_witness :
    (extract_data_from_markdown (("hello world").toList)).1 = none :=
  extract_no_brace_fails (("hello world").toList) (by decide)

theorem tryRepairs_eq_firstSome (L : List (List Char)) (js : List Char) :
    tryRepairs L js = ((L.map (fun sfx => pyJsonLoads (js ++ sfx))).filterMap id).head? := by
  induction L with
  | nil => rfl
  | cons sfx rest ih =>
    show (match pyJsonLoads (js ++ sfx) with
          | some j => some j
          | none => tryRepairs rest js) = _
    cases hp : pyJsonLoads (js ++ sfx) with
    | some j => simp [List.filterMap_cons, hp]
    | none => simp only [List.map_cons, List.filterMap_cons, hp, id]; exact ih

/-- C2: when the strict parse of the trimmed candidate fails, the extractor
appends the four suffixes in source order and returns the first parse that
succeeds; on the truncated two-item document the extraction succeeds and
items holds exactly two entries. -/
theorem repair_order_spec :
    (∀ js : List Char, pyJsonLoads js = none →
      attemptParse js =
        (([("]\x7d").toList, ("\x7d").toList, ("]\x7d").toList, (" ] \x7d").toList].map
          (fun sfx => pyJsonLoads (js ++ sfx))).filterMap id).head?) ∧
    (extract_data_from_markdown (("\x7b\"items\":[\x7b\"a\":1\x7d,\x7b\"a\":2\x7d").toList)).1 =
      some (.obj [((("items").toList),
        .arr [.obj [(['a'], .num ⟨1, 1⟩)], .obj [(['a'], .num ⟨2, 1⟩)]])]) := by
  constructor
  · intro js h
    show (match pyJsonLoads js with
          | some j => some j
          | none => tryRepairs repairSuffixes js) = _
    rw [h]
    exact tryRepairs_eq_firstSome repairSuffixes js
  · rfl

/-- C2 witness: the order statement applied at a candidate that fails the
strict parse. -/
theorem repair_order_spec_witness :
    attemptParse (("x").toList) =
      (([("]\x7d").toList, ("\x7d").toList, ("]\x7d").toList, (" ] \x7d").toList].map
        (fun sfx => pyJsonLoads ((("x").toList) ++ sfx))).filterMap id).head? :=
  repair_order_spec.1 (("x").toList) rfl

/-- C3, corrected.  Appending terminator-free garbage to a strictly valid
object string leaves extraction lossless: the rightmost-terminator cut lands
exactly on the object's final brace, the cut string is the original object
string, and the strict parse recovers the object.  Garbage holding any of
the three terminator characters moves the cut into the garbage and can make
extraction fail (see the counterexample), which refutes the claim as stated
for arbitrary trailing text. -/
theorem extract_roundtrip (s g : List Char) (v : Json)
    (hparse : pyJsonLoads s = some v)
    (hhead : s.head? = some '{')
    (hlast : s.getLast? = some '}')
    (hg : ∀ c ∈ g, c ≠ '}' ∧ c ≠ ']' ∧ c ≠ ',') :
    extractJson (s ++ g) = some v := by
  obtain ⟨t, rfl⟩ : ∃ t, s = '{' :: t := by
    cases s with
    | nil => simp at hhead
    | cons a t =>
      simp only [List.head?_cons, Option.some.injEq] at hhead
      exact ⟨t, by rw [hhead]⟩
  have hlen : 1 ≤ ('{' :: t).length := by simp
  have hfind : (('{' :: t) ++ g).findIdx? (fun c => c = '{') = some 0 := by
    rw [List.cons_append, List.findIdx?_cons]
    simp
  rw [extractJson_found hfind, List.drop_zero]
  have hstrip1 : pyStrip (('{' :: t) ++ g) = ('{' :: t) ++ pyRstrip g :=
    pyStrip_append '{' '}' rfl (by decide) hlast (by decide)
  rw [hstrip1]
  have hg' : ∀ c ∈ pyRstrip g, c ≠ '}' ∧ c ≠ ']' ∧ c ≠ ',' :=
    fun c hc => hg c (mem_pyRstrip hc)
  have hcut : lastValidIdx (('{' :: t) ++ pyRstrip g) = (('{' :: t).length : Int) - 1 :=
    lastValidIdx_append hlast hg'
  have hss : pyStrip ('{' :: t) = '{' :: t :=
    pyStrip_eq_self '{' '}' rfl (by decide) hlast (by decide)
  have hcut2 : cutAfterLastTerminator (('{' :: t) ++ pyRstrip g) = '{' :: t := by
    rw [cutAfterLastTerminator, hcut]
    have hnz : ((('{' :: t).length : Int) - 1) ≠ -1 := by omega
    rw [if_pos hnz]
    have htn : ((('{' :: t).length : Int) - 1).toNat + 1 = ('{' :: t).length := by omega
    rw [htn, List.take_left, hss]
  rw [hcut2]
  have hdrop : dropTrailingComma ('{' :: t) = '{' :: t := by
    rw [dropTrailingComma, if_neg (by rw [hlast]; simp)]
  rw [hdrop]
  show (match pyJsonLoads ('{' :: t) with
        | some j => some j
        | none => tryRepairs repairSuffixes ('{' :: t)) = some v
  rw [hparse]

/-- C3 witness: the theorem applied to a two-field object followed by
terminator-free narrative garbage. -/
theorem extract_roundtrip_witness :
    extractJson ((("\x7b\"a\":1\x7d").toList) ++ ((" trailing garbage text").toList)) =
      some (.obj [(['a'], .num ⟨1, 1⟩)]) :=
  extract_roundtrip (("\x7b\"a\":1\x7d").toList) ((" trailing garbage text").toList)
    (.obj [(['a'], .num ⟨1, 1⟩)]) rfl rfl rfl (by decide)

/-- C3 counterexample: the valid object followed by the garbage "x]" (which
holds a terminator character) extracts to None, not to the object. -/
theorem extract_roundtrip_claim_false :
    pyJsonLoads (("\x7b\"a\":1\x7d").toList) = some (.obj [(['a'], .num ⟨1, 1⟩)]) ∧
    extractJson ((("\x7b\"a\":1\x7d").toList) ++ (("x]").toList)) = none ∧
    (none : Option Json) ≠ some (.obj [(['a'], .num ⟨1, 1⟩)]) :=
  ⟨rfl, rfl, fun h => Option.noConfusion h⟩

/-! ## Dataframes and the monetary normalization pass (src/app.py lines 56-63) -/

/-- A dataframe: a fixed row count and named columns of cells. -/
structure Df (α : Type) where
  nrows : Nat
  cols : List (String × List α)

def colInsert {α : Type} : List (String × List α) → String → List α → List (String × List α)
  | [], name, vs => [(name, vs)]
  | (n0, v0) :: rest, name, vs =>
    if n0 = name then (n0, vs) :: rest else (n0, v0) :: colInsert rest name vs

def getCol {α : Type} (df : Df α) (name : String) : Option (List α) :=
  (df.cols.find? (fun p => p.1 = name)).map Prod.snd

/-- Pandas column assignment: an existing column is replaced in place, a new
one is appended. -/
def setCol {α : Type} (df : Df α) (name : String) (vs : List α) : Df α :=
  ⟨df.nrows, colInsert df.cols name vs⟩

def amount_cols : List String := ["deposit", "monthlyRent", "premium", "maintenanceFee"]

/-- Pandas df[col] / 10 on one cell of a numeric column; NaN propagates.  (A
non-numeric cell would raise in pandas; the claims only exercise numeric
monetary columns.) -/
def seriesDivTen : PyVal → PyVal
  | .num x => .num ⟨x.num, x.den * 10⟩
  | v => v

/-- src/app.py lines 57-63 (one iteration): a monetary column present in the
frame gains a ten-thousand-unit numeric column value/10 and a formatted
display column; an absent one gains the scalar defaults 0.0 and "0"
broadcast to every row. -/
def addAmountCol (df : Df PyVal) (col : String) : Df PyVal :=
  match getCol df col with
  | some vs =>
    setCol (setCol df (col ++ "_man") (vs.map seriesDivTen)) (col ++ "_fmt")
      (vs.map (fun v => PyVal.str (format_kor_money_from_thousand v)))
  | none =>
    setCol (setCol df (col ++ "_man") (List.replicate df.nrows (.num ⟨0, 1⟩)))
      (col ++ "_fmt") (List.replicate df.nrows (.str "0"))

/-- src/app.py lines 56-63: the loop over the four monetary fields. -/
def load_and_preprocess_amounts (df : Df PyVal) : Df PyVal :=
  amount_cols.foldl addAmountCol df

theorem getCol_setCol_eq {α : Type} (df : Df α) (name : String) (vs : List α) :
    getCol (setCol df name vs) name = some vs := by
  show (List.find? _ (colInsert df.cols name vs)).map Prod.snd = _
  induction df.cols with
  | nil => simp [colInsert, List.find?]
  | cons p rest ih =>
    obtain ⟨n0, v0⟩ := p
    by_cases h : n0 = name
    · simp [colInsert, h, List.find?]
    · simp only [colInsert, if_neg h]
      rw [List.find?_cons_of_neg _ (by simp [h])]
      exact ih

theorem getCol_setCol_ne {α : Type} (df : Df α) (name n : String) (vs : List α)
    (h : n ≠ name) : getCol (setCol df name vs) n = getCol df n := by
  show (List.find? _ (colInsert df.cols name vs)).map Prod.snd =
    (List.find? _ df.cols).map Prod.snd
  induction df.cols with
  | nil => simp [colInsert, List.find?, Ne.symm h]
  | cons p rest ih =>
    obtain ⟨n0, v0⟩ := p
    by_cases h0 : n0 = name
    · subst h0
      have e : colInsert ((n0, v0) :: rest) n0 vs = (n0, vs) :: rest := by
        simp [colInsert]
      rw [e, List.find?_cons_of_neg _ (by simp [Ne.symm h]),
        List.find?_cons_of_neg _ (by simp [Ne.symm h])]
    · simp only [colInsert, if_neg h0]
      by_cases hn : n0 = n
      · subst hn
        rw [List.find?_cons_of_pos _ (by simp), List.find?_cons_of_pos _ (by simp)]
      · rw [List.find?_cons_of_neg _ (by simp [hn]), List.find?_cons_of_neg _ (by simp [hn])]
        exact ih

theorem nrows_setCol {α : Type} (df : Df α) (name : String) (vs : List α) :
    (setCol df name vs).nrows = df.nrows := rfl

theorem nrows_addAmountCol (df : Df PyVal) (c : String) :
    (addAmountCol df c).nrows = df.nrows := by
  rw [addAmountCol]
  cases getCol df c <;> rfl

theorem getCol_addAmountCol_other (df : Df PyVal) (c n : String)
    (h1 : n ≠ c ++ "_man") (h2 : n ≠ c ++ "_fmt") :
    getCol (addAmountCol df c) n = getCol df n := by
  rw [addAmountCol]
  cases getCol df c with
  | none => rw [getCol_setCol_ne _ _ _ _ h2, getCol_setCol_ne _ _ _ _ h1]
  | some vs => rw [getCol_setCol_ne _ _ _ _ h2, getCol_setCol_ne _ _ _ _ h1]

theorem addAmountCol_present {df : Df PyVal} {c : String} {vs : List PyVal}
    (h : getCol df c = some vs) (hne : c ++ "_man" ≠ c ++ "_fmt") :
    getCol (addAmountCol df c) (c ++ "_man") = some (vs.map seriesDivTen) ∧
    getCol (addAmountCol df c) (c ++ "_fmt") =
      some (vs.map (fun v => PyVal.str (format_kor_money_from_thousand v))) := by
  rw [addAmountCol, h]
  exact ⟨by rw [getCol_setCol_ne _ _ _ _ hne, getCol_setCol_eq], by rw [getCol_setCol_eq]⟩

theorem addAmountCol_absent {df : Df PyVal} {c : String}
    (h : getCol df c = none) (hne : c ++ "_man" ≠ c ++ "_fmt") :
    getCol (addAmountCol df c) (c ++ "_man") =
      some (List.replicate df.nrows (.num ⟨0, 1⟩)) ∧
    getCol (addAmountCol df c) (c ++ "_fmt") =
      some (List.replicate df.nrows (.str "0")) := by
  rw [addAmountCol, h]
  exact ⟨by rw [getCol_setCol_ne _ _ _ _ hne, getCol_setCol_eq], by rw [getCol_setCol_eq]⟩

theorem getCol_foldl_other (df : Df PyVal) (L : List String) (n : String)
    (h : ∀ c ∈ L, n ≠ c ++ "_man" ∧ n ≠ c ++ "_fmt") :
    getCol (L.foldl addAmountCol df) n = getCol df n := by
  induction L generalizing df with
  | nil => rfl
  | cons c rest ih =>
    rw [List.foldl_cons, ih _ (fun c' hc' => h c' (List.mem_cons_of_mem _ hc'))]
    exact getCol_addAmountCol_other _ _ _ (h c (List.mem_cons_self _ _)).1
      (h c (List.mem_cons_self _ _)).2

theorem nrows_foldl (df : Df PyVal) (L : List String) :
    (L.foldl addAmountCol df).nrows = df.nrows := by
  induction L generalizing df with
  | nil => rfl
  | cons c rest ih => rw [List.foldl_cons, ih, nrows_addAmountCol]

/-- C7: for each monetary field among deposit, monthlyRent, premium and
maintenanceFee, a column present in the schema makes every record gain a
ten-thousand-unit numeric column equal to value/10 (exact on the fraction
model of floats) and a display column equal to the currency formatter mapped
over the values; an absent field gains the numeric default 0.0 and the
display default "0" in every row. -/
theorem amount_normalization (df : Df PyVal) (col : String) (hcol : col ∈ amount_cols) :
    (∀ vs, getCol df col = some vs →
      getCol (load_and_preprocess_amounts df) (col ++ "_man") = some (vs.map seriesDivTen) ∧
      getCol (load_and_preprocess_amounts df) (col ++ "_fmt") =
        some (vs.map (fun v => PyVal.str (format_kor_money_from_thousand v)))) ∧
    (getCol df col = none →
      getCol (load_and_preprocess_amounts df) (col ++ "_man") =
        some (List.replicate df.nrows (.num ⟨0, 1⟩)) ∧
      getCol (load_and_preprocess_amounts df) (col ++ "_fmt") =
        some (List.replicate df.nrows (.str "0"))) ∧
    (∀ x : PyFloat, seriesDivTen (.num x) = .num ⟨x.num, x.den * 10⟩) := by
  fin_cases hcol
  · have hsplit : load_and_preprocess_amounts df =
        (["monthlyRent", "premium", "maintenanceFee"].foldl addAmountCol
          (addAmountCol df ("deposit"))) := rfl
    refine ⟨?_, ?_, fun x => rfl⟩
    · intro vs hvs
      have hstep := @addAmountCol_present df _ _ hvs (by decide)
      rw [hsplit, getCol_foldl_other _ _ _ (by decide), getCol_foldl_other _ _ _ (by decide)]
      exact hstep
    · intro habs
      have hstep := @addAmountCol_absent df _ habs (by decide)
      rw [hsplit, getCol_foldl_other _ _ _ (by decide), getCol_foldl_other _ _ _ (by decide)]
      exact hstep
  · have hsplit : load_and_preprocess_amounts df =
        (["premium", "maintenanceFee"].foldl addAmountCol
          (addAmountCol (["deposit"].foldl addAmountCol df) ("monthlyRent"))) := rfl
    have hpre : getCol (["deposit"].foldl addAmountCol df) ("monthlyRent") =
        getCol df ("monthlyRent") := getCol_foldl_other _ _ _ (by decide)
    have hnr : (["deposit"].foldl addAmountCol df).nrows = df.nrows := nrows_foldl _ _
    refine ⟨?_, ?_, fun x => rfl⟩
    · intro vs hvs
      have hstep := addAmountCol_present (hpre.trans hvs) (by decide)
      rw [hsplit, getCol_foldl_other _ _ _ (by decide), getCol_foldl_other _ _ _ (by decide)]
      exact hstep
    · intro habs
      have hstep := addAmountCol_absent (hpre.trans habs) (by decide)
      rw [hnr] at hstep
      rw [hsplit, getCol_foldl_other _ _ _ (by decide), getCol_foldl_other _ _ _ (by decide)]
      exact hstep
  · have hsplit : load_and_preprocess_amounts df =
        (["maintenanceFee"].foldl addAmountCol
          (addAmountCol (["deposit", "monthlyRent"].foldl addAmountCol df) ("premium"))) := rfl
    have hpre : getCol (["deposit", "monthlyRent"].foldl addAmountCol df) ("premium") =
        getCol df ("premium") := getCol_foldl_other _ _ _ (by decide)
    have hnr : (["deposit", "monthlyRent"].foldl addAmountCol df).nrows = df.nrows :=
      nrows_foldl _ _
    refine ⟨?_, ?_, fun x => rfl⟩
    · intro vs hvs
      have hstep := addAmountCol_present (hpre.trans hvs) (by decide)
      rw [hsplit, getCol_foldl_other _ _ _ (by decide), getCol_foldl_other _ _ _ (by decide)]
      exact hstep
    · intro habs
      have hstep := addAmountCol_absent (hpre.trans habs) (by decide)
      rw [hnr] at hstep
      rw [hsplit, getCol_foldl_other _ _ _ (by decide), getCol_foldl_other _ _ _ (by decide)]
      exact hstep
  · have hsplit : load_and_preprocess_amounts df =
        (addAmountCol (["deposit", "monthlyRent", "premium"].foldl addAmountCol df)
          ("maintenanceFee")) := rfl
    have hpre : getCol (["deposit", "monthlyRent", "premium"].foldl addAmountCol df)
        ("maintenanceFee") = getCol df ("maintenanceFee") := getCol_foldl_other _ _ _ (by decide)
    have hnr : (["deposit", "monthlyRent", "premium"].foldl addAmountCol df).nrows =
        df.nrows := nrows_foldl _ _
    refine ⟨?_, ?_, fun x => rfl⟩
    · intro vs hvs
      exact hsplit ▸ addAmountCol_present (hpre.trans hvs) (by decide)
    · intro habs
      have hstep := addAmountCol_absent (hpre.trans habs) (by decide)
      rw [hnr] at hstep
      exact hsplit ▸ hstep

/-- C7 witness: a two-row frame holding only a deposit column; the present
branch yields the divided and formatted columns, the absent branch (premium)
yields the defaults. -/
theorem amount_normalization_witness :
    getCol (load_and_preprocess_amounts ⟨2, [(("deposit"), [intVal 45000, intVal 1700])]⟩)
      (("deposit") ++ "_man") = some [.num ⟨45000, 10⟩, .num ⟨1700, 10⟩] ∧
    getCol (load_and_preprocess_amounts ⟨2, [(("deposit"), [intVal 45000, intVal 1700])]⟩)
      (("premium") ++ "_fmt") = some [.str "0", .str "0"] := by
  constructor
  · have h := ((amount_normalization ⟨2, [(("deposit"), [intVal 45000, intVal 1700])]⟩
      ("deposit") (by decide)).1 [intVal 45000, intVal 1700] rfl).1
    rw [h]
    rfl
  · have h := ((amount_normalization ⟨2, [(("deposit"), [intVal 45000, intVal 1700])]⟩
      ("premium") (by decide)).2.1 rfl).2
    rw [h]
    rfl

/-! ## DB read postprocessing (src/utils.py lines 138-169) -/

/-- A value as read from the SQLite items table. -/
inductive DbCell where
  | null
  | int (n : Int)
  | real (x : PyFloat)
  | text (s : List Char)
deriving DecidableEq

/-- A cell after postprocessing: either untouched or a decoded JSON value. -/
inductive DbVal where
  | cell (c : DbCell)
  | parsed (j : Json)

/-- Python falsiness of a cell (the not val test). -/
def dbFalsy : DbCell → Bool
  | .null => true
  | .int n => n = 0
  | .real x => x.num = 0
  | .text s => s = []

def isTextCell : DbCell → Bool
  | .null => false
  | .int _ => false
  | .real _ => false
  | .text _ => true

/-- src/utils.py lines 157-163: falsy or non-string values are returned
unchanged; a nonempty string is parsed with json.loads, and any parse
failure returns the raw value (the bare except catches everything). -/
def safe_json_loads (v : DbCell) : DbVal :=
  if dbFalsy v || !(isTextCell v) then .cell v
  else
    match v with
    | .text s =>
      match pyJsonLoads s with
      | some j => .parsed j
      | none => .cell (.text s)
    | .null => .cell .null
    | .int n => .cell (.int n)
    | .real x => .cell (.real x)

def json_fields : List String := ["originPhotoUrls", "subPhotoUrls", "businessMiddleCodeName"]

/-- src/utils.py lines 154-164: each of the three JSON columns present in the
frame is mapped through safe_json_loads; every other column passes through
untouched.  (The source loops over the field list assigning one column at a
time; since the three names are distinct this equals the per-column map.) -/
def dbDecodeJsonFields (df : Df DbCell) : Df DbVal :=
  ⟨df.nrows, df.cols.map (fun p =>
    (p.1, if p.1 ∈ json_fields then p.2.map safe_json_loads else p.2.map DbVal.cell))⟩

/-- C9: a JSON-encoded column present in the table is decoded value by value;
a successful decode yields the structured value, and an empty string, a
non-string cell, or a failed decode returns the original value unchanged
(the model is total: nothing propagates). -/
theorem find_map_json (cols : List (String × List DbCell)) (field : String)
    (hf : field ∈ json_fields) (vs : List DbCell)
    (hvs : (cols.find? (fun p => p.1 = field)).map Prod.snd = some vs) :
    ((cols.map (fun p => (p.1, if p.1 ∈ json_fields then p.2.map safe_json_loads
        else p.2.map DbVal.cell))).find? (fun p => p.1 = field)).map Prod.snd =
      some (vs.map safe_json_loads) := by
  induction cols with
  | nil => simp at hvs
  | cons p rest ih =>
    obtain ⟨n0, v0⟩ := p
    rw [List.map_cons]
    by_cases h0 : n0 = field
    · subst h0
      rw [List.find?_cons_of_pos _ (by simp)] at hvs
      rw [List.find?_cons_of_pos _ (by simp)]
      simp only [Option.map_some', Option.some.injEq] at hvs
      subst hvs
      simp [if_pos hf]
    · rw [List.find?_cons_of_neg _ (by simp [h0])] at hvs
      rw [List.find?_cons_of_neg _ (by simp [h0])]
      exact ih hvs

theorem db_json_decode_spec (df : Df DbCell) (field : String) (hf : field ∈ json_fields) :
    (∀ vs, getCol df field = some vs →
      getCol (dbDecodeJsonFields df) field = some (vs.map safe_json_loads)) ∧
    (∀ s j, s ≠ [] → pyJsonLoads s = some j → safe_json_loads (.text s) = .parsed j) ∧
    (∀ s, s ≠ [] → pyJsonLoads s = none → safe_json_loads (.text s) = .cell (.text s)) ∧
    (safe_json_loads (.text []) = .cell (.text [])) ∧
    (∀ v, isTextCell v = false → safe_json_loads v = .cell v) := by
  refine ⟨?_, ?_, ?_, rfl, ?_⟩
  · intro vs hvs
    exact find_map_json df.cols field hf vs hvs
  · intro s j hs hj
    rw [safe_json_loads, if_neg (by simp [dbFalsy, isTextCell, hs])]
    rw [hj]
  · intro s hs hj
    rw [safe_json_loads, if_neg (by simp [dbFalsy, isTextCell, hs])]
    rw [hj]
  · intro v hv
    cases v with
    | text s => simp [isTextCell] at hv
    | null => rfl
    | int n => rw [safe_json_loads, if_pos (by simp [dbFalsy, isTextCell])]
    | real x => rw [safe_json_loads, if_pos (by simp [dbFalsy, isTextCell])]

/-- C9 witness: a one-column frame whose originPhotoUrls cell decodes to a
list, plus the fallback cases at concrete values. -/
theorem db_json_decode_spec_witness :
    getCol (dbDecodeJsonFields ⟨1, [(("originPhotoUrls"), [DbCell.text (("[\"u\"]").toList)])]⟩)
      ("originPhotoUrls") = some [.parsed (.arr [.str ['u']])] ∧
    safe_json_loads (.text (("not json").toList)) = .cell (.text (("not json").toList)) ∧
    safe_json_loads (.int 7) = .cell (.int 7) := by
  refine ⟨?_, ?_, ?_⟩
  · have h := (db_json_decode_spec ⟨1, [(("originPhotoUrls"), [DbCell.text (("[\"u\"]").toList)])]⟩
      ("originPhotoUrls") (by decide)).1 [DbCell.text (("[\"u\"]").toList)] rfl
    rw [h]
    rfl
  · exact (db_json_decode_spec ⟨1, []⟩ ("subPhotoUrls") (by decide)).2.2.1
      (("not json").toList) (by decide) rfl
  · exact (db_json_decode_spec ⟨1, []⟩ ("businessMiddleCodeName") (by decide)).2.2.2.2
      (.int 7) rfl

/-! ## HTML detail parsing (src/utils.py lines 94-136)

BeautifulSoup over the stdlib html.parser builder is modelled by a lenient
tag lexer and a stack tree-builder: an open tag pushes, a close tag pops to
the nearest matching open element (implicitly closing anything unclosed
inside it, as the builder does), an unmatched close tag is ignored, and
whatever is still open at the end of input is closed.  Only what the detail
parser consults is modelled: tag names (lowercased), the class attribute
and text content.  Entity decoding and exotic markup do not affect the
claims. -/

/-- A parsed HTML node: a text run or an element with its class list. -/
inductive HNode where
  | text (s : List Char)
  | elem (tag : List Char) (classes : List (List Char)) (children : List HNode)

/-- One lexer token. -/
inductive HTag where
  | htext (s : List Char)
  | hopen (tag : List Char) (classes : List (List Char)) (selfClose : Bool)
  | hclose (tag : List Char)

def isNameChar (c : Char) : Bool := c.isAlpha || c.isDigit || c = '-'

def toLowerL (l : List Char) : List Char := l.map Char.toLower

/-- Characters up to and including the first occurrence of q, and the rest. -/
def spanChar (q : Char) : List Char → List Char × List Char
  | [] => ([], [])
  | c :: rest =>
    if c = q then ([q], rest)
    else
      let p := spanChar q rest
      (c :: p.1, p.2)

/-- Scan the inside of a tag up to the closing angle bracket, honouring
quoted attribute values. -/
def scanToGt : Nat → List Char → List Char × List Char
  | 0, l => ([], l)
  | _, [] => ([], [])
  | f + 1, c :: rest =>
    if c = '>' then ([], rest)
    else if c = '"' || c = '\'' then
      let p := spanChar c rest
      let q := scanToGt f p.2
      (c :: (p.1 ++ q.1), q.2)
    else
      let q := scanToGt f rest
      (c :: q.1, q.2)

/-- Attribute list of a tag body: name, optional =value with single, double
or no quoting. -/
def parseAttrs : Nat → List Char → List (List Char × List Char)
  | 0, _ => []
  | _, [] => []
  | f + 1, l =>
    let l1 := l.dropWhile (fun c => !(isNameChar c))
    match l1 with
    | [] => []
    | _ :: _ =>
      let name := l1.takeWhile isNameChar
      let r1 := (l1.dropWhile isNameChar).dropWhile pyWs
      match r1 with
      | '=' :: r3 =>
        let r4 := r3.dropWhile pyWs
        match r4 with
        | '"' :: r5 =>
          let p := spanChar '"' r5
          (toLowerL name, p.1.dropLast) :: parseAttrs f p.2
        | '\'' :: r5 =>
          let p := spanChar '\'' r5
          (toLowerL name, p.1.dropLast) :: parseAttrs f p.2
        | _ =>
          let v := r4.takeWhile (fun c => !(pyWs c) && !(c = '>'))
          (toLowerL name, v) :: parseAttrs f (r4.drop v.length)
      | _ => (toLowerL name, []) :: parseAttrs f r1

/-- Split an attribute value on whitespace (the class list). -/
def splitWs : Nat → List Char → List (List Char)
  | 0, _ => []
  | _, [] => []
  | f + 1, l =>
    let l1 := l.dropWhile pyWs
    match l1 with
    | [] => []
    | _ :: _ =>
      l1.takeWhile (fun c => !(pyWs c)) :: splitWs f (l1.dropWhile (fun c => !(pyWs c)))

def classesOfAttrs (attrs : List (List Char × List Char)) : List (List Char) :=
  match attrs.find? (fun p => p.1 = ("class").toList) with
  | some p => splitWs (p.2.length + 1) p.2
  | none => []

def isVoidTag (t : List Char) : Bool :=
  ([("area"), ("base"), ("br"), ("col"), ("embed"), ("hr"), ("img"), ("input"),
    ("link"), ("meta"), ("source"), ("track"), ("wbr")].map String.toList).contains t

/-- The HTML lexer.  Fuel dominates the input length; each step consumes at
least one character. -/
def lexHtml : Nat → List Char → List HTag
  | 0, _ => []
  | _, [] => []
  | f + 1, l =>
    match l with
    | '<' :: rest =>
      match rest with
      | '/' :: r2 =>
        let name := (r2.dropWhile pyWs).takeWhile isNameChar
        let r3 := r2.dropWhile (fun c => !(c = '>'))
        .hclose (toLowerL name) :: lexHtml f (r3.drop 1)
      | '!' :: r2 =>
        match r2 with
        | '-' :: '-' :: r3 =>
          match findSubIdx (("-->").toList) r3 with
          | some i => lexHtml f (r3.drop (i + 3))
          | none => []
        | _ => lexHtml f ((r2.dropWhile (fun c => !(c = '>'))).drop 1)
      | c :: _ =>
        if c.isAlpha then
          let name := rest.takeWhile isNameChar
          let p := scanToGt (rest.length + 1) (rest.drop name.length)
          let attrs := parseAttrs (p.1.length + 1) p.1
          let selfC : Bool := p.1.getLast? = some '/'
          .hopen (toLowerL name) (classesOfAttrs attrs) selfC :: lexHtml f p.2
        else .htext ['<'] :: lexHtml f rest
      | [] => [.htext ['<']]
    | _ =>
      .htext (l.takeWhile (fun c => !(c = '<'))) ::
        lexHtml f (l.dropWhile (fun c => !(c = '<')))

/-- A builder stack frame: tag, classes, children accumulated in reverse. -/
abbrev HFrame := List Char × List (List Char) × List HNode

def pushNode (st : List HFrame) (n : HNode) : List HFrame :=
  match st with
  | [] => []
  | (t, cs, ch) :: rest => (t, cs, n :: ch) :: rest

/-- Close the top frame, folding it into its parent as a finished element. -/
def popFrame : List HFrame → List HFrame
  | (t, cs, ch) :: (t2, cs2, ch2) :: rest => (t2, cs2, (HNode.elem t cs ch.reverse) :: ch2) :: rest
  | st => st

/-- Pop frames until the one whose tag matches has been closed (callers
check the tag occurs in the stack first). -/
def closeUpTo : Nat → List Char → List HFrame → List HFrame
  | 0, _, st => st
  | _, _, [] => []
  | f + 1, tag, (t, cs, ch) :: rest =>
    if t = tag then popFrame ((t, cs, ch) :: rest)
    else closeUpTo f tag (popFrame ((t, cs, ch) :: rest))

def stepTok (st : List HFrame) : HTag → List HFrame
  | .htext s => pushNode st (.text s)
  | .hopen tag cs sc =>
    if sc || isVoidTag tag then pushNode st (.elem tag cs []) else (tag, cs, []) :: st
  | .hclose tag =>
    if st.any (fun fr => fr.1 = tag) then closeUpTo st.length tag st else st

/-- Fold the remaining open frames at end of input into the document root. -/
def collapseFrames : Nat → List HFrame → HNode
  | _, [(t, cs, ch)] => .elem t cs ch.reverse
  | 0, _ => .elem (("[document]").toList) [] []
  | f + 1, st => collapseFrames f (popFrame st)

/-- BeautifulSoup(html, html.parser) as a single document node. -/
def soupOf (html : List Char) : HNode :=
  let toks := lexHtml (html.length + 1) html
  collapseFrames (toks.length + 1) (toks.foldl stepTok [((("[document]").toList), [], [])])

def nodeMatches (tag : List Char) (cls : Option (List Char)) : HNode → Bool
  | .text _ => false
  | .elem t cs _ =>
    t = tag && (match cls with | none => true | some c => cs.contains c)

/-- soup.find over a node list: first match in document order (a node before
its descendants, descendants before later siblings).  The fuel bounds the
nesting depth of the walk; every caller passes a bound derived from the
document length, which dominates the node count of the soup. -/
def findInNodes : Nat → List Char → Option (List Char) → List HNode → Option HNode
  | 0, _, _, _ => none
  | _, _, _, [] => none
  | f + 1, tag, cls, n :: rest =>
    if nodeMatches tag cls n then some n
    else
      match n with
      | .text _ => findInNodes f tag cls rest
      | .elem _ _ ch =>
        match findInNodes f tag cls ch with
        | some m => some m
        | none => findInNodes f tag cls rest

/-- soup.find_all over a node list, in document order. -/
def findAllNodes : Nat → List Char → Option (List Char) → List HNode → List HNode
  | 0, _, _, _ => []
  | _, _, _, [] => []
  | f + 1, tag, cls, n :: rest =>
    (if nodeMatches tag cls n then [n] else []) ++
      (match n with
       | .text _ => []
       | .elem _ _ ch => findAllNodes f tag cls ch) ++ findAllNodes f tag cls rest

/-- element.find(name, class_): searches the element's descendants. -/
def findElem (f : Nat) (tag : List Char) (cls : Option (List Char)) : HNode → Option HNode
  | .text _ => none
  | .elem _ _ ch => findInNodes f tag cls ch

/-- element.find_all(name, class_). -/
def findAll (f : Nat) (tag : List Char) (cls : Option (List Char)) : HNode → List HNode
  | .text _ => []
  | .elem _ _ ch => findAllNodes f tag cls ch

/-- The text runs below a node list, in document order. -/
def textlist : Nat → List HNode → List (List Char)
  | 0, _ => []
  | _, [] => []
  | f + 1, .text s :: rest => s :: textlist f rest
  | f + 1, .elem _ _ ch :: rest => textlist f ch ++ textlist f rest

def joinSep (sep : List Char) : List (List Char) → List Char
  | [] => []
  | [x] => x
  | x :: y :: rest => x ++ sep ++ joinSep sep (y :: rest)

/-- get_text(separator=sep, strip=True): strip each text run, drop the ones
that become empty, join with the separator. -/
def getTextStrip (f : Nat) (sep : List Char) : HNode → List Char
  | .text s => joinSep sep ((([s]).map pyStrip).filter (fun t => t ≠ []))
  | .elem _ _ ch => joinSep sep (((textlist f ch).map pyStrip).filter (fun t => t ≠ []))

/-- The detail-mapping values: a text detail or the similar-listing entries
(each source entry is the singleton dict price: text; the model keeps the
price texts in order). -/
inductive DetailVal where
  | dstr (s : List Char)
  | ditems (prices : List (List Char))

/-- Python dict assignment for the details mapping: existing keys keep their
position and take the new value, new keys are appended. -/
def pyDictInsert (d : List (List Char × DetailVal)) (k : List Char) (v : DetailVal) :
    List (List Char × DetailVal) :=
  match d with
  | [] => [(k, v)]
  | (k0, v0) :: rest => if k0 = k then (k0, v) :: rest else (k0, v0) :: pyDictInsert rest k v

/-- src/utils.py lines 104-114: the price-container rows with both header and
data cells.  f is the walk-depth bound. -/
def priceTableDetails (f : Nat) (soup : HNode) : List (List Char × DetailVal) :=
  match findElem f (("div").toList) (some (("price-container").toList)) soup with
  | none => []
  | some pc =>
    (findAll f (("tr").toList) none pc).foldl (fun d row =>
      match findElem f (("th").toList) none row, findElem f (("td").toList) none row with
      | some th, some td =>
        pyDictInsert d (getTextStrip f [] th) (.dstr (getTextStrip f [] td))
      | _, _ => d) []

/-- src/utils.py lines 116-121: the comment paragraph, newline-joined. -/
def commentDetails (f : Nat) (soup : HNode) (d1 : List (List Char × DetailVal)) :
    List (List Char × DetailVal) :=
  match findElem f (("div").toList) (some (("comment").toList)) soup with
  | none => d1
  | some cm =>
    match findElem f (("p").toList) none cm with
    | none => d1
    | some p => pyDictInsert d1 (("comment").toList) (.dstr (getTextStrip f ['\n'] p))

/-- src/utils.py lines 123-133: the price texts of the similar listings. -/
def similarPrices (f : Nat) (soup : HNode) : List (List Char) :=
  match findElem f (("div").toList) (some (("similar").toList)) soup with
  | none => []
  | some ss =>
    (findAll f (("li").toList) (some (("article-list-item").toList)) ss).foldl
      (fun acc item =>
        match findElem f (("div").toList) (some (("price1").toList)) item with
        | some pt => acc ++ [getTextStrip f [] pt]
        | none => acc) []

/-- The walk-depth bound used for a document: its length dominates the token
count, hence the node count of the soup. -/
def soupFuel (html_content : List Char) : Nat := html_content.length + 2

/-- src/utils.py lines 94-136: empty input returns the empty mapping;
otherwise parse the soup and collect the three optional blocks, with
similar_items set unconditionally at the end. -/
def parse_html_details (html_content : List Char) : List (List Char × DetailVal) :=
  if html_content = [] then []
  else
    pyDictInsert
      (commentDetails (soupFuel html_content) (soupOf html_content)
        (priceTableDetails (soupFuel html_content) (soupOf html_content)))
      (("similar_items").toList)
      (.ditems (similarPrices (soupFuel html_content) (soupOf html_content)))

def detailLookup (d : List (List Char × DetailVal)) (k : List Char) : Option DetailVal :=
  (d.find? (fun p => p.1 = k)).map Prod.snd

example : detailLookup (parse_html_details
    (("<div class=\"price-container\"><table><tr><th>Deposit</th><td>1000</td></tr></table></div>").toList))
    (("Deposit").toList) = some (.dstr (("1000").toList)) := rfl
example : detailLookup (parse_html_details
    (("<div class=\"price-container\"><table><tr><th>Deposit</th><td>1000</td></tr></table></div>").toList))
    (("similar_items").toList) = some (.ditems []) := rfl
example : detailLookup (parse_html_details
    (("<div class=\"comment\"><p>hi</p></div>").toList)) (("comment").toList) =
    some (.dstr (("hi").toList)) := rfl
example : detailLookup (parse_html_details
    (("<div class=\"similar\"><ul><li class=\"article-list-item x\"><div class=\"price1\">1억</div></li><li class=\"article-list-item\"><div class=\"price1\">2억</div></li></ul></div>").toList))
    (("similar_items").toList) =
    some (.ditems [("1억").toList, ("2억").toList]) := rfl
example : parse_html_details [] = [] := rfl

theorem detailLookup_insert (d : List (List Char × DetailVal)) (k : List Char) (v : DetailVal) :
    detailLookup (pyDictInsert d k v) k = some v := by
  induction d with
  | nil => simp [detailLookup, pyDictInsert, List.find?]
  | cons p rest ih =>
    obtain ⟨k0, v0⟩ := p
    by_cases h : k0 = k
    · subst h
      simp [detailLookup, pyDictInsert, List.find?]
    · have e : pyDictInsert ((k0, v0) :: rest) k v = (k0, v0) :: pyDictInsert rest k v := by
        simp [pyDictInsert, h]
      rw [e]
      show (List.find? _ ((k0, v0) :: pyDictInsert rest k v)).map Prod.snd = some v
      rw [List.find?_cons_of_neg _ (by simp [h])]
      exact ih

/-- C4, corrected.  For every nonempty htmlFragment the resulting mapping
holds the reserved key similar_items, bound to the ordered sequence of
similar-listing price texts, which is empty when the similar block is
missing or matches no list items.  For the empty fragment the code returns
the empty mapping, which does not hold the key, refuting the claim's
"including the empty one". -/
theorem similar_items_always_present (html : List Char) (h : html ≠ []) :
    detailLookup (parse_html_details html) (("similar_items").toList) =
      some (.ditems (similarPrices (soupFuel html) (soupOf html))) ∧
    (findElem (soupFuel html) (("div").toList) (some (("similar").toList))
        (soupOf html) = none →
      similarPrices (soupFuel html) (soupOf html) = []) ∧
    (∀ ss, findElem (soupFuel html) (("div").toList) (some (("similar").toList))
        (soupOf html) = some ss →
      findAll (soupFuel html) (("li").toList) (some (("article-list-item").toList)) ss = [] →
      similarPrices (soupFuel html) (soupOf html) = []) := by
  refine ⟨?_, ?_, ?_⟩
  · rw [parse_html_details, if_neg h]
    exact detailLookup_insert _ _ _
  · intro hnone
    rw [similarPrices, hnone]
  · intro ss hss hempty
    rw [similarPrices, hss]
    show List.foldl _ []
      (findAll (soupFuel html) (("li").toList) (some (("article-list-item").toList)) ss) = []
    rw [hempty]
    rfl

/-- C4 witness: the theorem applied to a nonempty fragment with no similar
block; the reserved key is present and holds the empty sequence. -/
theorem similar_items_always_present_witness :
    detailLookup (parse_html_details (("<div class=\"x\">hi</div>").toList))
      (("similar_items").toList) = some (.ditems []) := by
  have h := (similar_items_always_present (("<div class=\"x\">hi</div>").toList) (by decide)).1
  rw [h]
  rfl

/-- C4 counterexample: the empty fragment returns the empty mapping, which
does not hold the similar_items key the claim requires of every input. -/
theorem similar_items_empty_input_claim_false :
    parse_html_details [] = [] ∧
    detailLookup (parse_html_details []) (("similar_items").toList) = none :=
  ⟨rfl, rfl⟩

/-! ## Equivalence of the repair chain with its deduplicated form

The two spaced suffixes " ] }" and "]}" close the same token stream: JSON
whitespace between tokens is insignificant, an unterminated string or a
dangling escape fails under either suffix (neither holds a quote), and both
']' and ' ' terminate a number token identically.  The lemmas below make
this precise at tokenizer level: appending text over the alphabet
space/bracket/brace to any document either breaks tokenization in both
variants or contributes the same closing tokens. -/

/-- The character alphabet of the repair suffixes. -/
def sfxAlphabet (x : List Char) : Prop := ∀ c ∈ x, c = ' ' ∨ c = ']' ∨ c = '}'

theorem scanString_alphabet_none {x : List Char} (hx : sfxAlphabet x) :
    ∀ acc, scanString acc x = none := by
  induction x with
  | nil => intro acc; rfl
  | cons c xr ih =>
    intro acc
    have hxr : sfxAlphabet xr := fun d hd => hx d (List.mem_cons_of_mem _ hd)
    rcases hx c (List.mem_cons_self _ _) with rfl | rfl | rfl
    · rw [scanString.eq_def]
      exact ih hxr (' ' :: acc)
    · rw [scanString.eq_def]
      exact ih hxr (']' :: acc)
    · rw [scanString.eq_def]
      exact ih hxr ('}' :: acc)

/-- The spaced repair suffix. -/
def sfxW : List Char := (" ] \x7d").toList

/-- The compact repair suffix. -/
def sfxB : List Char := ("]\x7d").toList

theorem sfxW_eq : sfxW = ' ' :: ']' :: ' ' :: '\x7d' :: [] := by decide

theorem sfxB_eq : sfxB = ']' :: '\x7d' :: [] := by decide

theorem sfx_alphabet {x : List Char} (hx : x = sfxW ∨ x = sfxB) : sfxAlphabet x := by
  rcases hx with rfl | rfl
  · show ∀ c ∈ sfxW, c = ' ' ∨ c = ']' ∨ c = '\x7d'
    decide
  · show ∀ c ∈ sfxB, c = ' ' ∨ c = ']' ∨ c = '\x7d'
    decide

theorem munchDigits_cons (c : Char) (rest : List Char) :
    munchDigits (c :: rest) =
      (if c.isDigit then (c :: (munchDigits rest).1, (munchDigits rest).2)
       else ([], c :: rest)) := by
  rw [munchDigits.eq_def]

theorem splitSign_cons (c : Char) (r : List Char) :
    splitSign (c :: r) = (if c = '-' then (true, r) else (false, c :: r)) := by
  rw [splitSign.eq_def]

theorem scanIntPart_cons (c : Char) (r : List Char) :
    scanIntPart (c :: r) =
      (if c = '0' then some ([c], r)
       else if c.isDigit then some (c :: (munchDigits r).1, (munchDigits r).2)
       else none) := by
  rw [scanIntPart.eq_def]

theorem scanFracPart_cons (c : Char) (r : List Char) :
    scanFracPart (c :: r) =
      (if c = '.' then
        (if (munchDigits r).1 = [] then ([], c :: r) else munchDigits r)
       else ([], c :: r)) := by
  rw [scanFracPart.eq_def]

theorem expSign_cons (c : Char) (rr : List Char) :
    expSign (c :: rr) =
      (if c = '+' then (false, rr)
       else if c = '-' then (true, rr)
       else (false, c :: rr)) := by
  rw [expSign.eq_def]

theorem scanExpPart_cons (e : Char) (r : List Char) :
    scanExpPart (e :: r) =
      (if e = 'e' ∨ e = 'E' then
        (if (munchDigits (expSign r).2).1 = [] then ((0 : Int), e :: r)
         else
           ((if (expSign r).1 then -(digitsVal (munchDigits (expSign r).2).1 : Int)
             else (digitsVal (munchDigits (expSign r).2).1 : Int)),
             (munchDigits (expSign r).2).2))
       else ((0 : Int), e :: r)) := by
  rw [scanExpPart.eq_def]

theorem munchDigits_append {x : List Char} (hx : x = sfxW ∨ x = sfxB) (u : List Char) :
    munchDigits (u ++ x) = ((munchDigits u).1, (munchDigits u).2 ++ x) := by
  induction u with
  | nil => rcases hx with rfl | rfl <;> rfl
  | cons c ur ih =>
    rw [List.cons_append, munchDigits_cons, munchDigits_cons, ih]
    by_cases hc : c.isDigit
    · rw [if_pos hc, if_pos hc]
    · rw [if_neg hc, if_neg hc]
      rfl

theorem splitSign_append {x : List Char} (hx : x = sfxW ∨ x = sfxB) (u : List Char) :
    splitSign (u ++ x) = ((splitSign u).1, (splitSign u).2 ++ x) := by
  cases u with
  | nil => rcases hx with rfl | rfl <;> rfl
  | cons c ur =>
    rw [List.cons_append, splitSign_cons, splitSign_cons]
    by_cases hc : c = '-'
    · rw [if_pos hc, if_pos hc]
    · rw [if_neg hc, if_neg hc]
      rfl

theorem scanIntPart_append {x : List Char} (hx : x = sfxW ∨ x = sfxB) (u : List Char) :
    scanIntPart (u ++ x) = (scanIntPart u).map (fun p => (p.1, p.2 ++ x)) := by
  cases u with
  | nil => rcases hx with rfl | rfl <;> rfl
  | cons c ur =>
    rw [List.cons_append, scanIntPart_cons, scanIntPart_cons]
    by_cases h0 : c = '0'
    · rw [if_pos h0, if_pos h0]
      rfl
    · rw [if_neg h0, if_neg h0]
      by_cases hd : c.isDigit
      · rw [if_pos hd, if_pos hd, munchDigits_append hx]
        rfl
      · rw [if_neg hd, if_neg hd]
        rfl

theorem scanFracPart_append {x : List Char} (hx : x = sfxW ∨ x = sfxB) (u : List Char) :
    scanFracPart (u ++ x) = ((scanFracPart u).1, (scanFracPart u).2 ++ x) := by
  cases u with
  | nil => rcases hx with rfl | rfl <;> rfl
  | cons c ur =>
    rw [List.cons_append, scanFracPart_cons, scanFracPart_cons]
    by_cases hdot : c = '.'
    · rw [if_pos hdot, if_pos hdot, munchDigits_append hx]
      by_cases hemp : (munchDigits ur).1 = []
      · rw [if_pos (by simpa using hemp), if_pos hemp]
        rfl
      · rw [if_neg (by simpa using hemp), if_neg hemp]
    · rw [if_neg hdot, if_neg hdot]
      rfl

theorem expSign_append {x : List Char} (hx : x = sfxW ∨ x = sfxB) (u : List Char) :
    expSign (u ++ x) = ((expSign u).1, (expSign u).2 ++ x) := by
  cases u with
  | nil => rcases hx with rfl | rfl <;> rfl
  | cons c ur =>
    rw [List.cons_append, expSign_cons, expSign_cons]
    by_cases hp : c = '+'
    · rw [if_pos hp, if_pos hp]
    · rw [if_neg hp, if_neg hp]
      by_cases hm : c = '-'
      · rw [if_pos hm, if_pos hm]
      · rw [if_neg hm, if_neg hm]
        rfl

theorem scanExpPart_append {x : List Char} (hx : x = sfxW ∨ x = sfxB) (u : List Char) :
    scanExpPart (u ++ x) = ((scanExpPart u).1, (scanExpPart u).2 ++ x) := by
  cases u with
  | nil => rcases hx with rfl | rfl <;> rfl
  | cons c ur =>
    rw [List.cons_append, scanExpPart_cons, scanExpPart_cons]
    by_cases he : c = 'e' ∨ c = 'E'
    · rw [if_pos he, if_pos he, expSign_append hx, munchDigits_append hx]
      by_cases hemp : (munchDigits (expSign ur).2).1 = []
      · rw [if_pos (by simpa using hemp), if_pos hemp]
        rfl
      · rw [if_neg (by simpa using hemp), if_neg hemp]
    · rw [if_neg he, if_neg he]
      rfl

theorem scanNumber_append {x : List Char} (hx : x = sfxW ∨ x = sfxB) (u : List Char) :
    scanNumber (u ++ x) = (scanNumber u).map (fun p => (p.1, p.2 ++ x)) := by
  rw [scanNumber, scanNumber, splitSign_append hx]
  rw [show ((splitSign u).1, (splitSign u).2 ++ x).2 = (splitSign u).2 ++ x from rfl]
  rw [scanIntPart_append hx]
  cases hip : scanIntPart (splitSign u).2 with
  | none => rfl
  | some p =>
    obtain ⟨ip, l2⟩ := p
    show (match some (ip, l2 ++ x) with
          | none => none
          | some (ip, l2) =>
            some (jsonNumVal ((splitSign u).1, (splitSign u).2 ++ x).1 ip (scanFracPart l2).1
              (scanExpPart (scanFracPart l2).2).1, (scanExpPart (scanFracPart l2).2).2)) = _
    rw [show ((splitSign u).1, (splitSign u).2 ++ x).1 = (splitSign u).1 from rfl]
    show some (jsonNumVal (splitSign u).1 ip (scanFracPart (l2 ++ x)).1
      (scanExpPart (scanFracPart (l2 ++ x)).2).1, (scanExpPart (scanFracPart (l2 ++ x)).2).2) = _
    rw [scanFracPart_append hx]
    show some (jsonNumVal (splitSign u).1 ip (scanFracPart l2).1
      (scanExpPart ((scanFracPart l2).2 ++ x)).1, (scanExpPart ((scanFracPart l2).2 ++ x)).2) = _
    rw [scanExpPart_append hx]
    rfl

theorem scanString_cons (acc : List Char) (c : Char) (rest : List Char) :
    scanString acc (c :: rest) =
      (if c = '"' then some (acc.reverse, rest)
       else if c = '\\' then
         match rest with
         | [] => none
         | e :: rest2 =>
           if e = '"' then scanString ('"' :: acc) rest2
           else if e = '\\' then scanString ('\\' :: acc) rest2
           else if e = '/' then scanString ('/' :: acc) rest2
           else if e = 'b' then scanString ('\x08' :: acc) rest2
           else if e = 'f' then scanString ('\x0c' :: acc) rest2
           else if e = 'n' then scanString ('\n' :: acc) rest2
           else if e = 'r' then scanString ('\r' :: acc) rest2
           else if e = 't' then scanString ('\t' :: acc) rest2
           else if e = 'u' then
             match rest2 with
             | h1 :: h2 :: h3 :: h4 :: rest3 =>
               match hexVal h1, hexVal h2, hexVal h3, hexVal h4 with
               | some a, some b, some c2, some d =>
                 scanString (Char.ofNat (a * 4096 + b * 256 + c2 * 16 + d) :: acc) rest3
               | _, _, _, _ => none
             | _ => none
           else none
       else if c.toNat < 32 then none
       else scanString (c :: acc) rest) := by
  rw [scanString.eq_def]

theorem scanString_append {x : List Char} (hx : x = sfxW ∨ x = sfxB) :
    ∀ n u acc, u.length ≤ n →
      scanString acc (u ++ x) = (scanString acc u).map (fun p => (p.1, p.2 ++ x)) := by
  intro n
  induction n with
  | zero =>
    intro u acc hu
    rw [List.eq_nil_of_length_eq_zero (Nat.le_zero.mp hu), List.nil_append,
      scanString_alphabet_none (sfx_alphabet hx) acc]
    rfl
  | succ n ih =>
    intro u acc hu
    cases u with
    | nil =>
      rw [List.nil_append, scanString_alphabet_none (sfx_alphabet hx) acc]
      rfl
    | cons c ur =>
      rw [List.cons_append, scanString_cons, scanString_cons]
      by_cases hq : c = '"'
      · rw [if_pos hq, if_pos hq]
        rfl
      · rw [if_neg hq, if_neg hq]
        by_cases hb : c = '\\'
        · rw [if_pos hb, if_pos hb]
          cases ur with
          | nil =>
            rw [List.nil_append]
            rcases hx with rfl | rfl
            · rw [sfxW_eq]
              rfl
            · rw [sfxB_eq]
              rfl
          | cons e ur2 =>
            rw [List.cons_append]
            simp only []
            have hlen2 : ur2.length ≤ n := by
              simp only [List.length_cons] at hu
              omega
            by_cases h1 : e = '"'
            · rw [if_pos h1, if_pos h1]
              exact ih ur2 _ hlen2
            · rw [if_neg h1, if_neg h1]
              by_cases h2 : e = '\\'
              · rw [if_pos h2, if_pos h2]
                exact ih ur2 _ hlen2
              · rw [if_neg h2, if_neg h2]
                by_cases h3 : e = '/'
                · rw [if_pos h3, if_pos h3]
                  exact ih ur2 _ hlen2
                · rw [if_neg h3, if_neg h3]
                  by_cases h4 : e = 'b'
                  · rw [if_pos h4, if_pos h4]
                    exact ih ur2 _ hlen2
                  · rw [if_neg h4, if_neg h4]
                    by_cases h5 : e = 'f'
                    · rw [if_pos h5, if_pos h5]
                      exact ih ur2 _ hlen2
                    · rw [if_neg h5, if_neg h5]
                      by_cases h6 : e = 'n'
                      · rw [if_pos h6, if_pos h6]
                        exact ih ur2 _ hlen2
                      · rw [if_neg h6, if_neg h6]
                        by_cases h7 : e = 'r'
                        · rw [if_pos h7, if_pos h7]
                          exact ih ur2 _ hlen2
                        · rw [if_neg h7, if_neg h7]
                          by_cases h8 : e = 't'
                          · rw [if_pos h8, if_pos h8]
                            exact ih ur2 _ hlen2
                          · rw [if_neg h8, if_neg h8]
                            by_cases h9 : e = 'u'
                            · rw [if_pos h9, if_pos h9]
                              match ur2, hlen2 with
                              | [], _ =>
                                rw [List.nil_append]
                                rcases hx with rfl | rfl
                                · rw [sfxW_eq]
                                  rfl
                                · rw [sfxB_eq]
                                  rfl
                              | [a], _ =>
                                rw [List.cons_append, List.nil_append]
                                rcases hx with rfl | rfl
                                · rw [sfxW_eq]
                                  simp only []
                                  cases hexVal a <;> rfl
                                · rw [sfxB_eq]
                                  simp only []
                                  cases hexVal a <;> rfl
                              | [a, b], _ =>
                                rw [List.cons_append, List.cons_append, List.nil_append]
                                rcases hx with rfl | rfl
                                · rw [sfxW_eq]
                                  simp only []
                                  cases hexVal a <;> cases hexVal b <;> rfl
                                · rw [sfxB_eq]
                                  simp only []
                                  cases hexVal a <;> cases hexVal b <;> rfl
                              | [a, b, c3], _ =>
                                rw [List.cons_append, List.cons_append, List.cons_append,
                                  List.nil_append]
                                rcases hx with rfl | rfl
                                · rw [sfxW_eq]
                                  simp only []
                                  cases hexVal a <;> cases hexVal b <;> cases hexVal c3 <;> rfl
                                · rw [sfxB_eq]
                                  simp only []
                                  cases hexVal a <;> cases hexVal b <;> cases hexVal c3 <;> rfl
                              | a :: b :: c3 :: d :: ur3, hlen2 =>
                                rw [List.cons_append, List.cons_append, List.cons_append,
                                  List.cons_append]
                                simp only []
                                cases hexVal a <;> cases hexVal b <;> cases hexVal c3 <;>
                                  cases hexVal d <;>
                                  first
                                  | rfl
                                  | exact ih ur3 _ (by
                                      simp only [List.length_cons] at hlen2
                                      omega)
                            · rw [if_neg h9, if_neg h9]
                              rfl
        · rw [if_neg hb, if_neg hb]
          by_cases hcc : c.toNat < 32
          · rw [if_pos hcc, if_pos hcc]
            rfl
          · rw [if_neg hcc, if_neg hcc]
            exact ih ur _ (by simp only [List.length_cons] at hu; omega)

theorem isPrefixOf_append_of_disjoint {x : List Char} (hx : x = sfxW ∨ x = sfxB) :
    ∀ pat r, (∀ c ∈ pat, ¬(c = ' ' ∨ c = ']' ∨ c = '\x7d')) →
      List.isPrefixOf pat (r ++ x) = List.isPrefixOf pat r := by
  intro pat
  induction pat with
  | nil =>
    intro r _
    have hn : ∀ l : List Char, List.isPrefixOf [] l = true := by
      intro l; cases l <;> rfl
    rw [hn, hn]
  | cons p ps ih =>
    intro r hp
    cases r with
    | nil =>
      rw [List.nil_append]
      have hph := hp p (List.mem_cons_self _ _)
      rcases hx with rfl | rfl
      · rw [sfxW_eq]
        show (p == ' ' && List.isPrefixOf ps ([']', ' ', '\x7d'])) = false
        rw [beq_eq_false_iff_ne.mpr (fun h => hph (Or.inl h)), Bool.false_and]
      · rw [sfxB_eq]
        show (p == ']' && List.isPrefixOf ps (['\x7d'])) = false
        rw [beq_eq_false_iff_ne.mpr (fun h => hph (Or.inr (Or.inl h))), Bool.false_and]
    | cons a rs =>
      rw [List.cons_append]
      show (p == a && List.isPrefixOf ps (rs ++ x)) = (p == a && List.isPrefixOf ps rs)
      rw [ih rs (fun c hc => hp c (List.mem_cons_of_mem _ hc))]

theorem oneToken_cons (c : Char) (r : List Char) :
    oneToken (c :: r) =
      (if c = '\x7b' then some (Jtok.lbrace, r)
       else if c = '\x7d' then some (Jtok.rbrace, r)
       else if c = '[' then some (Jtok.lbrack, r)
       else if c = ']' then some (Jtok.rbrack, r)
       else if c = ',' then some (Jtok.comma, r)
       else if c = ':' then some (Jtok.colon, r)
       else if c = '"' then (scanString [] r).map (fun p => (Jtok.jstr p.1, p.2))
       else if c = 't' then
         if List.isPrefixOf ['r', 'u', 'e'] r then some (Jtok.jtrue, r.drop 3) else none
       else if c = 'f' then
         if List.isPrefixOf ['a', 'l', 's', 'e'] r then some (Jtok.jfalse, r.drop 4) else none
       else if c = 'n' then
         if List.isPrefixOf ['u', 'l', 'l'] r then some (Jtok.jnull, r.drop 3) else none
       else if c = '-' ∨ c.isDigit then (scanNumber (c :: r)).map (fun p => (Jtok.jnum p.1, p.2))
       else none) := by
  rw [oneToken.eq_def]

theorem oneToken_append {x : List Char} (hx : x = sfxW ∨ x = sfxB) (c : Char) (r : List Char) :
    oneToken (c :: (r ++ x)) = (oneToken (c :: r)).map (fun p => (p.1, p.2 ++ x)) := by
  rw [oneToken_cons, oneToken_cons]
  by_cases k1 : c = '\x7b'
  · rw [if_pos k1, if_pos k1]; rfl
  · rw [if_neg k1, if_neg k1]
    by_cases k2 : c = '\x7d'
    · rw [if_pos k2, if_pos k2]; rfl
    · rw [if_neg k2, if_neg k2]
      by_cases k3 : c = '['
      · rw [if_pos k3, if_pos k3]; rfl
      · rw [if_neg k3, if_neg k3]
        by_cases k4 : c = ']'
        · rw [if_pos k4, if_pos k4]; rfl
        · rw [if_neg k4, if_neg k4]
          by_cases k5 : c = ','
          · rw [if_pos k5, if_pos k5]; rfl
          · rw [if_neg k5, if_neg k5]
            by_cases k6 : c = ':'
            · rw [if_pos k6, if_pos k6]; rfl
            · rw [if_neg k6, if_neg k6]
              by_cases k7 : c = '"'
              · rw [if_pos k7, if_pos k7, scanString_append hx r.length r [] (le_refl _)]
                cases scanString [] r <;> rfl
              · rw [if_neg k7, if_neg k7]
                by_cases k8 : c = 't'
                · rw [if_pos k8, if_pos k8,
                    isPrefixOf_append_of_disjoint hx ['r', 'u', 'e'] r (by decide)]
                  cases hpr : List.isPrefixOf ['r', 'u', 'e'] r with
                  | false => rfl
                  | true =>
                    have hle : 3 ≤ r.length := by
                      have := (List.isPrefixOf_iff_prefix.mp hpr).length_le
                      simpa using this
                    rw [if_pos rfl, if_pos rfl, List.drop_append_of_le_length hle]
                    rfl
                · rw [if_neg k8, if_neg k8]
                  by_cases k9 : c = 'f'
                  · rw [if_pos k9, if_pos k9,
                      isPrefixOf_append_of_disjoint hx ['a', 'l', 's', 'e'] r (by decide)]
                    cases hpr : List.isPrefixOf ['a', 'l', 's', 'e'] r with
                    | false => rfl
                    | true =>
                      have hle : 4 ≤ r.length := by
                        have := (List.isPrefixOf_iff_prefix.mp hpr).length_le
                        simpa using this
                      rw [if_pos rfl, if_pos rfl, List.drop_append_of_le_length hle]
                      rfl
                  · rw [if_neg k9, if_neg k9]
                    by_cases k10 : c = 'n'
                    · rw [if_pos k10, if_pos k10,
                        isPrefixOf_append_of_disjoint hx ['u', 'l', 'l'] r (by decide)]
                      cases hpr : List.isPrefixOf ['u', 'l', 'l'] r with
                      | false => rfl
                      | true =>
                        have hle : 3 ≤ r.length := by
                          have := (List.isPrefixOf_iff_prefix.mp hpr).length_le
                          simpa using this
                        rw [if_pos rfl, if_pos rfl, List.drop_append_of_le_length hle]
                        rfl
                    · rw [if_neg k10, if_neg k10]
                      by_cases k11 : c = '-' ∨ c.isDigit
                      · rw [if_pos k11, if_pos k11, ← List.cons_append,
                          scanNumber_append hx (c :: r)]
                        cases scanNumber (c :: r) <;> rfl
                      · rw [if_neg k11, if_neg k11]
                        rfl

theorem skipWs_append_nil {m : List Char} (x : List Char) (h : skipWs m = []) :
    skipWs (m ++ x) = skipWs x := by
  simp only [skipWs] at h ⊢
  rw [List.dropWhile_append, h]
  rfl

theorem skipWs_append_cons {m : List Char} (x : List Char) {c : Char} {r : List Char}
    (h : skipWs m = c :: r) : skipWs (m ++ x) = c :: (r ++ x) := by
  simp only [skipWs] at h ⊢
  rw [List.dropWhile_append, h]
  rfl

theorem tokenize_nil_of (fuel : Nat) {l : List Char} (h : skipWs l = []) :
    tokenize fuel l = some [] := by
  rw [tokenize.eq_def, h]

theorem tokenize_zero_of {l : List Char} {c : Char} {r : List Char}
    (h : skipWs l = c :: r) : tokenize 0 l = none := by
  rw [tokenize.eq_def, h]

theorem tokenize_succ_of (fuel : Nat) {l : List Char} {c : Char} {r : List Char}
    (h : skipWs l = c :: r) :
    tokenize (fuel + 1) l =
      (match oneToken (c :: r) with
       | none => none
       | some (t, rr) => (tokenize fuel rr).map (fun ts => t :: ts)) := by
  rw [tokenize.eq_def, h]

theorem skipWs_append_sfx_ne_nil {x : List Char} (hx : x = sfxW ∨ x = sfxB) (m : List Char) :
    skipWs (m ++ x) ≠ [] := by
  cases hsw : skipWs m with
  | nil =>
    rw [skipWs_append_nil _ hsw]
    rcases hx with rfl | rfl <;> decide
  | cons c r =>
    rw [skipWs_append_cons _ hsw]
    exact List.cons_ne_nil _ _

theorem tokenize_W_to_B :
    ∀ fuel m ts, tokenize fuel (m ++ sfxW) = some ts → tokenize fuel (m ++ sfxB) = some ts := by
  intro fuel
  induction fuel with
  | zero =>
    intro m ts h
    exfalso
    cases hsw : skipWs (m ++ sfxW) with
    | nil => exact skipWs_append_sfx_ne_nil (Or.inl rfl) m hsw
    | cons c r =>
      rw [tokenize_zero_of hsw] at h
      exact Option.noConfusion h
  | succ f ih =>
    intro m ts h
    cases hsw : skipWs m with
    | nil =>
      have hW : skipWs (m ++ sfxW) = ']' :: [' ', '\x7d'] := by
        rw [skipWs_append_nil _ hsw]
        decide
      rw [tokenize_succ_of f hW] at h
      have h2 : (tokenize f [' ', '\x7d']).map (fun ts => Jtok.rbrack :: ts) = some ts := h
      cases f with
      | zero =>
        rw [tokenize_zero_of (show skipWs [' ', '\x7d'] = '\x7d' :: [] by decide)] at h2
        exact Option.noConfusion h2
      | succ f2 =>
        rw [tokenize_succ_of f2 (show skipWs [' ', '\x7d'] = '\x7d' :: [] by decide)] at h2
        have h3 : (((tokenize f2 []).map (fun ts => Jtok.rbrace :: ts)).map
            (fun ts => Jtok.rbrack :: ts)) = some ts := h2
        rw [tokenize_nil_of f2 (show skipWs [] = [] from rfl)] at h3
        have hts : ts = [Jtok.rbrack, Jtok.rbrace] := (Option.some.inj h3).symm
        subst hts
        have hB : skipWs (m ++ sfxB) = ']' :: ['\x7d'] := by
          rw [skipWs_append_nil _ hsw]
          decide
        rw [tokenize_succ_of (f2 + 1) hB]
        show (tokenize (f2 + 1) ['\x7d']).map (fun ts => Jtok.rbrack :: ts) = _
        rw [tokenize_succ_of f2 (show skipWs ['\x7d'] = '\x7d' :: [] by decide)]
        show ((tokenize f2 []).map (fun ts => Jtok.rbrace :: ts)).map
          (fun ts => Jtok.rbrack :: ts) = _
        rw [tokenize_nil_of f2 (show skipWs [] = [] from rfl)]
        rfl
    | cons c rm =>
      rw [tokenize_succ_of f (skipWs_append_cons sfxW hsw),
        oneToken_append (Or.inl rfl) c rm] at h
      cases hot : oneToken (c :: rm) with
      | none =>
        rw [hot] at h
        exact Option.noConfusion h
      | some p =>
        obtain ⟨t, rr⟩ := p
        rw [hot] at h
        have h2 : (tokenize f (rr ++ sfxW)).map (fun ts => t :: ts) = some ts := h
        cases hrec : tokenize f (rr ++ sfxW) with
        | none =>
          rw [hrec] at h2
          exact Option.noConfusion h2
        | some ts2 =>
          rw [hrec] at h2
          have hts : ts = t :: ts2 := (Option.some.inj h2).symm
          subst hts
          rw [tokenize_succ_of f (skipWs_append_cons sfxB hsw),
            oneToken_append (Or.inr rfl) c rm, hot]
          show (tokenize f (rr ++ sfxB)).map (fun ts => t :: ts) = _
          rw [ih rr ts2 hrec]
          rfl

theorem munchDigits_length (l : List Char) : (munchDigits l).2.length ≤ l.length := by
  induction l with
  | nil => exact Nat.le_refl _
  | cons c r ih =>
    rw [munchDigits_cons]
    by_cases hc : c.isDigit
    · rw [if_pos hc]
      exact Nat.le_trans ih (Nat.le_succ _)
    · rw [if_neg hc]

theorem splitSign_length (l : List Char) : (splitSign l).2.length ≤ l.length := by
  cases l with
  | nil => exact Nat.le_refl _
  | cons c r =>
    rw [splitSign_cons]
    by_cases hc : c = '-'
    · rw [if_pos hc]
      exact Nat.le_succ _
    · rw [if_neg hc]

theorem scanIntPart_length {l : List Char} {ip r : List Char}
    (h : scanIntPart l = some (ip, r)) : r.length < l.length := by
  cases l with
  | nil => exact Option.noConfusion h
  | cons c u =>
    rw [scanIntPart_cons] at h
    by_cases h0 : c = '0'
    · rw [if_pos h0] at h
      obtain ⟨_, h2⟩ := Prod.mk.injEq .. ▸ Option.some.inj h
      rw [← h2]
      exact Nat.lt_succ_self _
    · rw [if_neg h0] at h
      by_cases hd : c.isDigit
      · rw [if_pos hd] at h
        obtain ⟨_, h2⟩ := Prod.mk.injEq .. ▸ Option.some.inj h
        rw [← h2]
        exact Nat.lt_succ_of_le (munchDigits_length u)
      · rw [if_neg hd] at h
        exact Option.noConfusion h

theorem scanFracPart_length (l : List Char) : (scanFracPart l).2.length ≤ l.length := by
  cases l with
  | nil => exact Nat.le_refl _
  | cons c r =>
    rw [scanFracPart_cons]
    by_cases hdot : c = '.'
    · rw [if_pos hdot]
      by_cases hemp : (munchDigits r).1 = []
      · rw [if_pos hemp]
      · rw [if_neg hemp]
        exact Nat.le_trans (munchDigits_length r) (Nat.le_succ _)
    · rw [if_neg hdot]

theorem expSign_length (l : List Char) : (expSign l).2.length ≤ l.length := by
  cases l with
  | nil => exact Nat.le_refl _
  | cons c r =>
    rw [expSign_cons]
    by_cases hp : c = '+'
    · rw [if_pos hp]; exact Nat.le_succ _
    · rw [if_neg hp]
      by_cases hm : c = '-'
      · rw [if_pos hm]; exact Nat.le_succ _
      · rw [if_neg hm]

theorem scanExpPart_length (l : List Char) : (scanExpPart l).2.length ≤ l.length := by
  cases l with
  | nil => exact Nat.le_refl _
  | cons c r =>
    rw [scanExpPart_cons]
    by_cases he : c = 'e' ∨ c = 'E'
    · rw [if_pos he]
      by_cases hemp : (munchDigits (expSign r).2).1 = []
      · rw [if_pos hemp]
      · rw [if_neg hemp]
        exact Nat.le_trans (Nat.le_trans (munchDigits_length _) (expSign_length r))
          (Nat.le_succ _)
    · rw [if_neg he]

theorem scanNumber_length {l : List Char} {v : PyFloat} {r : List Char}
    (h : scanNumber l = some (v, r)) : r.length < l.length := by
  rw [scanNumber] at h
  cases hip : scanIntPart (splitSign l).2 with
  | none => rw [hip] at h; exact Option.noConfusion h
  | some p =>
    obtain ⟨ip, l2⟩ := p
    rw [hip] at h
    have h2 : r = (scanExpPart (scanFracPart l2).2).2 :=
      ((Prod.mk.injEq .. ▸ Option.some.inj h).2).symm
    rw [h2]
    calc (scanExpPart (scanFracPart l2).2).2.length
        ≤ (scanFracPart l2).2.length := scanExpPart_length _
      _ ≤ l2.length := scanFracPart_length _
      _ < (splitSign l).2.length := scanIntPart_length hip
      _ ≤ l.length := splitSign_length _

theorem scanString_length :
    ∀ n u acc s rest, u.length ≤ n → scanString acc u = some (s, rest) →
      rest.length < u.length := by
  intro n
  induction n with
  | zero =>
    intro u acc s rest hu h
    rw [List.eq_nil_of_length_eq_zero (Nat.le_zero.mp hu)] at h
    exact Option.noConfusion h
  | succ n ih =>
    intro u acc s rest hu h
    cases u with
    | nil => exact Option.noConfusion h
    | cons c ur =>
      rw [scanString_cons] at h
      by_cases hq : c = '"'
      · rw [if_pos hq] at h
        have h2 : rest = ur := (Prod.mk.injEq .. ▸ Option.some.inj h).2.symm
        rw [h2]
        exact Nat.lt_succ_self _
      · rw [if_neg hq] at h
        by_cases hb : c = '\\'
        · rw [if_pos hb] at h
          cases ur with
          | nil => exact Option.noConfusion h
          | cons e ur2 =>
            simp only [] at h
            have hlen2 : ur2.length ≤ n := by
              simp only [List.length_cons] at hu
              omega
            have step : ∀ acc2, scanString acc2 ur2 = some (s, rest) →
                rest.length < (c :: e :: ur2).length := by
              intro acc2 hh
              have := ih ur2 acc2 s rest hlen2 hh
              simp only [List.length_cons]
              omega
            by_cases h1 : e = '"'
            · rw [if_pos h1] at h; exact step _ h
            · rw [if_neg h1] at h
              by_cases h2 : e = '\\'
              · rw [if_pos h2] at h; exact step _ h
              · rw [if_neg h2] at h
                by_cases h3 : e = '/'
                · rw [if_pos h3] at h; exact step _ h
                · rw [if_neg h3] at h
                  by_cases h4 : e = 'b'
                  · rw [if_pos h4] at h; exact step _ h
                  · rw [if_neg h4] at h
                    by_cases h5 : e = 'f'
                    · rw [if_pos h5] at h; exact step _ h
                    · rw [if_neg h5] at h
                      by_cases h6 : e = 'n'
                      · rw [if_pos h6] at h; exact step _ h
                      · rw [if_neg h6] at h
                        by_cases h7 : e = 'r'
                        · rw [if_pos h7] at h; exact step _ h
                        · rw [if_neg h7] at h
                          by_cases h8 : e = 't'
                          · rw [if_pos h8] at h; exact step _ h
                          · rw [if_neg h8] at h
                            by_cases h9 : e = 'u'
                            · rw [if_pos h9] at h
                              match ur2, hlen2, h with
                              | a :: b :: c3 :: d :: ur3, hlen2, h => ?_
                              case _ =>
                                simp only [] at h
                                cases ha : hexVal a <;> rw [ha] at h
                                case none => exact Option.noConfusion h
                                case some =>
                                cases hb2 : hexVal b <;> rw [hb2] at h
                                case none => exact Option.noConfusion h
                                case some =>
                                cases hc2 : hexVal c3 <;> rw [hc2] at h
                                case none => exact Option.noConfusion h
                                case some =>
                                cases hd2 : hexVal d <;> rw [hd2] at h
                                case none => exact Option.noConfusion h
                                case some =>
                                  have := ih ur3 _ s rest (by
                                    simp only [List.length_cons] at hlen2
                                    omega) h
                                  simp only [List.length_cons]
                                  omega
                            · rw [if_neg h9] at h
                              exact Option.noConfusion h
        · rw [if_neg hb] at h
          by_cases hcc : c.toNat < 32
          · rw [if_pos hcc] at h
            exact Option.noConfusion h
          · rw [if_neg hcc] at h
            have := ih ur _ s rest (by
              simp only [List.length_cons] at hu
              omega) h
            simp only [List.length_cons]
            omega

theorem oneToken_shrink {l : List Char} {t : Jtok} {r : List Char}
    (h : oneToken l = some (t, r)) : r.length < l.length := by
  cases l with
  | nil => exact Option.noConfusion h
  | cons c r0 =>
    rw [oneToken_cons] at h
    by_cases k1 : c = '\x7b'
    · rw [if_pos k1] at h
      have h2 : r = r0 := (Prod.mk.inj (Option.some.inj h)).2.symm
      rw [h2]
      exact Nat.lt_succ_self _
    · rw [if_neg k1] at h
      by_cases k2 : c = '\x7d'
      · rw [if_pos k2] at h
        have h2 : r = r0 := (Prod.mk.inj (Option.some.inj h)).2.symm
        rw [h2]
        exact Nat.lt_succ_self _
      · rw [if_neg k2] at h
        by_cases k3 : c = '['
        · rw [if_pos k3] at h
          have h2 : r = r0 := (Prod.mk.inj (Option.some.inj h)).2.symm
          rw [h2]
          exact Nat.lt_succ_self _
        · rw [if_neg k3] at h
          by_cases k4 : c = ']'
          · rw [if_pos k4] at h
            have h2 : r = r0 := (Prod.mk.inj (Option.some.inj h)).2.symm
            rw [h2]
            exact Nat.lt_succ_self _
          · rw [if_neg k4] at h
            by_cases k5 : c = ','
            · rw [if_pos k5] at h
              have h2 : r = r0 := (Prod.mk.inj (Option.some.inj h)).2.symm
              rw [h2]
              exact Nat.lt_succ_self _
            · rw [if_neg k5] at h
              by_cases k6 : c = ':'
              · rw [if_pos k6] at h
                have h2 : r = r0 := (Prod.mk.inj (Option.some.inj h)).2.symm
                rw [h2]
                exact Nat.lt_succ_self _
              · rw [if_neg k6] at h
                by_cases k7 : c = '"'
                · rw [if_pos k7] at h
                  cases hs : scanString [] r0 with
                  | none => rw [hs] at h; exact Option.noConfusion h
                  | some p =>
                    obtain ⟨s2, rest2⟩ := p
                    rw [hs] at h
                    have h2 : r = rest2 := (Prod.mk.injEq .. ▸ Option.some.inj h).2.symm
                    rw [h2]
                    exact Nat.lt_succ_of_lt (scanString_length r0.length r0 [] s2 rest2
                      (Nat.le_refl _) hs)
                · rw [if_neg k7] at h
                  by_cases k8 : c = 't'
                  · rw [if_pos k8] at h
                    cases hpr : List.isPrefixOf ['r', 'u', 'e'] r0 with
                    | false => rw [hpr] at h; exact Option.noConfusion h
                    | true =>
                      rw [hpr, if_pos rfl] at h
                      have h2 : r = r0.drop 3 := (Prod.mk.injEq .. ▸ Option.some.inj h).2.symm
                      rw [h2, List.length_drop, List.length_cons]
                      omega
                  · rw [if_neg k8] at h
                    by_cases k9 : c = 'f'
                    · rw [if_pos k9] at h
                      cases hpr : List.isPrefixOf ['a', 'l', 's', 'e'] r0 with
                      | false => rw [hpr] at h; exact Option.noConfusion h
                      | true =>
                        rw [hpr, if_pos rfl] at h
                        have h2 : r = r0.drop 4 := (Prod.mk.injEq .. ▸ Option.some.inj h).2.symm
                        rw [h2, List.length_drop, List.length_cons]
                        omega
                    · rw [if_neg k9] at h
                      by_cases k10 : c = 'n'
                      · rw [if_pos k10] at h
                        cases hpr : List.isPrefixOf ['u', 'l', 'l'] r0 with
                        | false => rw [hpr] at h; exact Option.noConfusion h
                        | true =>
                          rw [hpr, if_pos rfl] at h
                          have h2 : r = r0.drop 3 :=
                            (Prod.mk.injEq .. ▸ Option.some.inj h).2.symm
                          rw [h2, List.length_drop, List.length_cons]
                          omega
                      · rw [if_neg k10] at h
                        by_cases k11 : c = '-' ∨ c.isDigit
                        · rw [if_pos k11] at h
                          cases hn : scanNumber (c :: r0) with
                          | none => rw [hn] at h; exact Option.noConfusion h
                          | some p =>
                            obtain ⟨v2, rest2⟩ := p
                            rw [hn] at h
                            have h2 : r = rest2 :=
                              (Prod.mk.injEq .. ▸ Option.some.inj h).2.symm
                            rw [h2]
                            exact scanNumber_length hn
                        · rw [if_neg k11] at h
                          exact Option.noConfusion h

theorem skipWs_length (l : List Char) : (skipWs l).length ≤ l.length :=
  (List.dropWhile_suffix isJsonWs).length_le

theorem tokenize_length :
    ∀ fuel l ts, tokenize fuel l = some ts → ts.length ≤ l.length := by
  intro fuel
  induction fuel with
  | zero =>
    intro l ts h
    cases hsw : skipWs l with
    | nil =>
      rw [tokenize_nil_of 0 hsw] at h
      rw [← Option.some.inj h]
      exact Nat.zero_le _
    | cons c r =>
      rw [tokenize_zero_of hsw] at h
      exact Option.noConfusion h
  | succ f ih =>
    intro l ts h
    cases hsw : skipWs l with
    | nil =>
      rw [tokenize_nil_of (f + 1) hsw] at h
      rw [← Option.some.inj h]
      exact Nat.zero_le _
    | cons c r =>
      rw [tokenize_succ_of f hsw] at h
      cases hot : oneToken (c :: r) with
      | none => rw [hot] at h; exact Option.noConfusion h
      | some p =>
        obtain ⟨t, rr⟩ := p
        rw [hot] at h
        have h2 : (tokenize f rr).map (fun ts => t :: ts) = some ts := h
        cases hrec : tokenize f rr with
        | none => rw [hrec] at h2; exact Option.noConfusion h2
        | some ts2 =>
          rw [hrec] at h2
          have hts : ts = t :: ts2 := (Option.some.inj h2).symm
          have hlen1 : ts2.length ≤ rr.length := ih rr ts2 hrec
          have hlen2 : rr.length < (c :: r).length := oneToken_shrink hot
          have hlen3 : (skipWs l).length ≤ l.length := skipWs_length l
          rw [hsw] at hlen3
          rw [hts, List.length_cons]
          simp only [List.length_cons] at hlen2 hlen3
          omega

theorem tokenize_mono :
    ∀ fuel l ts, tokenize fuel l = some ts → ∀ g, ts.length ≤ g → tokenize g l = some ts := by
  intro fuel
  induction fuel with
  | zero =>
    intro l ts h g hg
    cases hsw : skipWs l with
    | nil =>
      rw [tokenize_nil_of 0 hsw] at h
      rw [tokenize_nil_of g hsw, h]
    | cons c r =>
      rw [tokenize_zero_of hsw] at h
      exact Option.noConfusion h
  | succ f ih =>
    intro l ts h g hg
    cases hsw : skipWs l with
    | nil =>
      rw [tokenize_nil_of (f + 1) hsw] at h
      rw [tokenize_nil_of g hsw, h]
    | cons c r =>
      rw [tokenize_succ_of f hsw] at h
      cases hot : oneToken (c :: r) with
      | none => rw [hot] at h; exact Option.noConfusion h
      | some p =>
        obtain ⟨t, rr⟩ := p
        rw [hot] at h
        have h2 : (tokenize f rr).map (fun ts => t :: ts) = some ts := h
        cases hrec : tokenize f rr with
        | none => rw [hrec] at h2; exact Option.noConfusion h2
        | some ts2 =>
          rw [hrec] at h2
          have hts : ts = t :: ts2 := (Option.some.inj h2).symm
          subst hts
          cases g with
          | zero => simp only [List.length_cons] at hg; omega
          | succ g2 =>
            rw [tokenize_succ_of g2 hsw, hot]
            show (tokenize g2 rr).map (fun ts => t :: ts) = _
            rw [ih rr ts2 hrec g2 (by simp only [List.length_cons] at hg; omega)]
            rfl

theorem loads_W_to_B {js : List Char} {v : Json}
    (h : pyJsonLoads (js ++ sfxW) = some v) : pyJsonLoads (js ++ sfxB) = some v := by
  rw [pyJsonLoads] at h ⊢
  cases htok : tokenize ((js ++ sfxW).length + 1) (js ++ sfxW) with
  | none => rw [htok] at h; exact Option.noConfusion h
  | some ts =>
    rw [htok] at h
    have hB1 : tokenize ((js ++ sfxW).length + 1) (js ++ sfxB) = some ts :=
      tokenize_W_to_B _ js ts htok
    have hlen : ts.length ≤ (js ++ sfxB).length := tokenize_length _ _ _ hB1
    have hB2 : tokenize ((js ++ sfxB).length + 1) (js ++ sfxB) = some ts :=
      tokenize_mono _ _ _ hB1 _ (Nat.le_succ_of_le hlen)
    rw [hB2]
    exact h

theorem tryRepairs_dedup (js : List Char) :
    tryRepairs repairSuffixes js = tryRepairs [("]\x7d").toList, ("\x7d").toList] js := by
  have hrs : repairSuffixes =
      [sfxB, ("\x7d").toList, sfxB, sfxW] := rfl
  have hB : ("]\x7d").toList = sfxB := rfl
  rw [hrs, hB]
  show (match pyJsonLoads (js ++ sfxB) with
        | some j => some j
        | none => tryRepairs [("\x7d").toList, sfxB, sfxW] js) =
    (match pyJsonLoads (js ++ sfxB) with
        | some j => some j
        | none => tryRepairs [("\x7d").toList] js)
  cases h1 : pyJsonLoads (js ++ sfxB) with
  | some j => rfl
  | none =>
    show (match pyJsonLoads (js ++ ("\x7d").toList) with
          | some j => some j
          | none => tryRepairs [sfxB, sfxW] js) =
      (match pyJsonLoads (js ++ ("\x7d").toList) with
          | some j => some j
          | none => tryRepairs [] js)
    cases h2 : pyJsonLoads (js ++ ("\x7d").toList) with
    | some j => rfl
    | none =>
      show (match pyJsonLoads (js ++ sfxB) with
            | some j => some j
            | none => tryRepairs [sfxW] js) = tryRepairs [] js
      rw [h1]
      show (match pyJsonLoads (js ++ sfxW) with
            | some j => some j
            | none => tryRepairs [] js) = tryRepairs [] js
      cases h3 : pyJsonLoads (js ++ sfxW) with
      | some j =>
        have hcontra := loads_W_to_B h3
        rw [h1] at hcontra
        exact Option.noConfusion hcontra
      | none => rfl

/-- C8: the claim asserts the four-suffix repair chain is NOT behaviorally
equivalent to the deduplicated chain trying only "]\x7d" then "\x7d".  In fact
the two chains agree on every candidate: the third suffix repeats the first
verbatim, and the spaced fourth suffix " ] \x7d" closes exactly the same token
stream as "]\x7d" (inter-token whitespace is insignificant, neither suffix can
rescue an unterminated string, and space and bracket terminate a number
alike), so it can never succeed where "]\x7d" failed.  The repair chain over
the full suffix list equals the deduplicated chain on every input. -/
theorem repair_chain_dedup_equiv (js : List Char) :
    tryRepairs repairSuffixes js = tryRepairs [("]\x7d").toList, ("\x7d").toList] js :=
  tryRepairs_dedup js

/-- C8 counterexample to the claim as stated: there is no JSON-candidate
input on which the four-suffix chain and the deduplicated chain disagree. -/
theorem repair_chain_nonequiv_claim_false :
    ¬ ∃ js : List Char,
      tryRepairs repairSuffixes js ≠ tryRepairs [("]\x7d").toList, ("\x7d").toList] js :=
  fun ⟨js, hne⟩ => hne (tryRepairs_dedup js)

end Nemo
